import Mathlib

/-!
Verification of the Atomic Resource Broker reservation coordinator.

The repository coordinates reservations of numbered time slots across two
remote services ("hotel" and "band").  We give a shallow embedding of the
coordinator functions of `booking.py` / `booking_service.py`, of the
in-memory test double `mock_reservation_api.py`, and of the rate limiter,
and prove or refute the specification's claims about them.

Remote services are modelled as explicit state (available / held slot
sets per service); a remote call either raises (no effect on the remote
state) or succeeds (with the obvious effect).  Which calls raise is
decided by an explicit fault `Oracle`, indexed by the number of remote
calls issued so far — this mirrors the Python code, where every remote
call can raise a typed exception.  Every call and every warning print is
recorded in an event log so that theorems can speak about which calls
were attempted and in what order.
-/

/-- The two remote services. -/
inductive Side where
  | hotel
  | band
deriving DecidableEq, Repr

/-- Observable events: remote calls (with their success flag) and the
distinguished warning prints of the coordinator, plus the retry-loop
sleep and the final exhaustion print of `reserveEarliestSlot`. -/
inductive Event where
  | resH (n : ℕ) (ok : Bool)
  | resB (n : ℕ) (ok : Bool)
  | relH (n : ℕ) (ok : Bool)
  | relB (n : ℕ) (ok : Bool)
  | getAvailH (ok : Bool)
  | getAvailB (ok : Bool)
  | getHeldH (ok : Bool)
  | getHeldB (ok : Bool)
  | warnRollbackFail (n : ℕ)
  | warnInconsistent (n : ℕ)
  | sleepRetry (secs : ℕ)
  | exhausted
deriving DecidableEq, Repr

/-- State of one remote service: the slots it reports available and the
slots the caller currently holds on it. -/
structure Svc where
  avail : Finset ℕ
  held : Finset ℕ
deriving DecidableEq

/-- Global state: the two services, the number of remote calls issued so
far (used to index the fault oracle), and the event log. -/
structure World where
  hotel : Svc
  band : Svc
  idx : ℕ
  log : List Event
deriving DecidableEq

/-- Fault oracle: `f i = true` means the `i`-th remote call raises. -/
def Oracle : Type := ℕ → Bool

/-- The oracle under which no remote call ever raises. -/
def allOk : Oracle := fun _ => false

/-- Append one event to the log. -/
def pushE (w : World) (e : Event) : World :=
  { w with log := w.log ++ [e] }

/-- Componentwise extensionality for `Svc`. -/
theorem svcFieldsEq (a b : Svc) (h1 : a.avail = b.avail) (h2 : a.held = b.held) : a = b := by
  cases a; cases b; cases h1; cases h2; rfl

/-- Componentwise extensionality for `World`. -/
theorem worldFieldsEq (a b : World) (h1 : a.hotel = b.hotel) (h2 : a.band = b.band)
    (h3 : a.idx = b.idx) (h4 : a.log = b.log) : a = b := by
  cases a; cases b; cases h1; cases h2; cases h3; cases h4; rfl

/-- Effect of a successful `reserve_slot` on a service. -/
def reserveEff (s : Svc) (n : ℕ) : Svc :=
  { avail := s.avail.erase n, held := insert n s.held }

/-- Effect of a successful `release_slot` on a service. -/
def releaseEff (s : Svc) (n : ℕ) : Svc :=
  { avail := insert n s.avail, held := s.held.erase n }

/-- `hotel.reserve_slot n`: raises or succeeds as the oracle dictates. -/
def callResH (f : Oracle) (n : ℕ) (w : World) : Bool × World :=
  let ok := !(f w.idx)
  let w1 : World := { w with idx := w.idx + 1, log := w.log ++ [Event.resH n ok] }
  if ok then (true, { w1 with hotel := reserveEff w1.hotel n }) else (false, w1)

/-- `band.reserve_slot n`. -/
def callResB (f : Oracle) (n : ℕ) (w : World) : Bool × World :=
  let ok := !(f w.idx)
  let w1 : World := { w with idx := w.idx + 1, log := w.log ++ [Event.resB n ok] }
  if ok then (true, { w1 with band := reserveEff w1.band n }) else (false, w1)

/-- `hotel.release_slot n`. -/
def callRelH (f : Oracle) (n : ℕ) (w : World) : Bool × World :=
  let ok := !(f w.idx)
  let w1 : World := { w with idx := w.idx + 1, log := w.log ++ [Event.relH n ok] }
  if ok then (true, { w1 with hotel := releaseEff w1.hotel n }) else (false, w1)

/-- `band.release_slot n`. -/
def callRelB (f : Oracle) (n : ℕ) (w : World) : Bool × World :=
  let ok := !(f w.idx)
  let w1 : World := { w with idx := w.idx + 1, log := w.log ++ [Event.relB n ok] }
  if ok then (true, { w1 with band := releaseEff w1.band n }) else (false, w1)

/-- `hotel.get_slots_available`: returns `none` when the call raises. -/
def callGetAvailH (f : Oracle) (w : World) : Option (Finset ℕ) × World :=
  let ok := !(f w.idx)
  let w1 : World := { w with idx := w.idx + 1, log := w.log ++ [Event.getAvailH ok] }
  if ok then (some w.hotel.avail, w1) else (none, w1)

/-- `band.get_slots_available`. -/
def callGetAvailB (f : Oracle) (w : World) : Option (Finset ℕ) × World :=
  let ok := !(f w.idx)
  let w1 : World := { w with idx := w.idx + 1, log := w.log ++ [Event.getAvailB ok] }
  if ok then (some w.band.avail, w1) else (none, w1)

/-- `hotel.get_slots_held`. -/
def callGetHeldH (f : Oracle) (w : World) : Option (Finset ℕ) × World :=
  let ok := !(f w.idx)
  let w1 : World := { w with idx := w.idx + 1, log := w.log ++ [Event.getHeldH ok] }
  if ok then (some w.hotel.held, w1) else (none, w1)

/-- `band.get_slots_held`. -/
def callGetHeldB (f : Oracle) (w : World) : Option (Finset ℕ) × World :=
  let ok := !(f w.idx)
  let w1 : World := { w with idx := w.idx + 1, log := w.log ++ [Event.getHeldB ok] }
  if ok then (some w.band.held, w1) else (none, w1)

/-- Python's `sorted` on a set of slot ids, as a kernel-computable
insertion sort on the underlying multiset. -/
def finSort (s : Finset ℕ) : List ℕ :=
  Quot.lift (fun l => l.insertionSort (· ≤ ·))
    (fun l1 l2 h => List.eq_of_perm_of_sorted
      (((l1.perm_insertionSort (· ≤ ·)).trans h).trans (l2.perm_insertionSort (· ≤ ·)).symm)
      (l1.sorted_insertionSort (· ≤ ·)) (l2.sorted_insertionSort (· ≤ ·)))
    s.val

/-- `finSort` agrees with Mathlib's `Finset.sort`. -/
theorem finSort_eq_sort (s : Finset ℕ) : finSort s = s.sort (· ≤ ·) := by
  have h1 : (finSort s : Multiset ℕ) = s.val := by
    cases s with
    | mk val nodup =>
      induction val using Quot.ind with
      | _ l => exact Quot.sound (l.perm_insertionSort (· ≤ ·))
  have hsorted : List.Sorted (· ≤ ·) (finSort s) := by
    cases s with
    | mk val nodup =>
      induction val using Quot.ind with
      | _ l => exact l.sorted_insertionSort (· ≤ ·)
  have h2 : ((s.sort (· ≤ ·) : List ℕ) : Multiset ℕ) = s.val := Finset.sort_eq (· ≤ ·) s
  have hperm : List.Perm (finSort s) (s.sort (· ≤ ·)) :=
    Multiset.coe_eq_coe.mp (h1.trans h2.symm)
  exact List.eq_of_perm_of_sorted hperm hsorted (Finset.sort_sorted _ _)

/-- `viewCurrentSlots` (booking.py lines 49–58): fetch both held lists,
returning `([], [])` if either fetch raises (the exception is caught). -/
def viewCurrentSlotsW (f : Oracle) (w : World) : (Finset ℕ × Finset ℕ) × World :=
  match callGetHeldH f w with
  | (none, w1) => ((∅, ∅), w1)
  | (some hs, w1) =>
    match callGetHeldB f w1 with
    | (none, w2) => ((∅, ∅), w2)
    | (some bs, w2) => ((hs, bs), w2)

/-- The set-union of matching candidates described in the spec:
(availableA ∩ availableB) ∪ (heldA ∩ availableB) ∪ (heldB ∩ availableA). -/
def candidateUnion (aH aB hH hB : Finset ℕ) : Finset ℕ :=
  (aH ∩ aB) ∪ (hH ∩ aB) ∪ (hB ∩ aH)

/-- Pure core of `viewFirst5FreeSlots` (booking.py lines 79–92): build the
matching set exactly as the source does (intersection, then two updates),
sort ascending, take the first 5. -/
def viewFirst5Core (aH aB hH hB : Finset ℕ) : List ℕ :=
  let matching1 := aH ∩ aB
  let matching2 := matching1 ∪ (hH ∩ aB)
  let matching3 := matching2 ∪ (hB ∩ aH)
  (finSort matching3).take 5

/-- `viewFirst5FreeSlots` (booking.py lines 60–95): four fetches, then the
pure matching computation; any raise is caught and yields `[]`. -/
def viewFirst5W (f : Oracle) (w : World) : List ℕ × World :=
  match callGetAvailH f w with
  | (none, w1) => ([], w1)
  | (some aH, w1) =>
    match callGetAvailB f w1 with
    | (none, w2) => ([], w2)
    | (some aB, w2) =>
      match callGetHeldH f w2 with
      | (none, w3) => ([], w3)
      | (some hH, w3) =>
        match callGetHeldB f w3 with
        | (none, w4) => ([], w4)
        | (some hB, w4) => (viewFirst5Core aH aB hH hB, w4)

/-- `reserveSlot` (booking.py lines 122–178).  Returns the truthiness of
the two response dicts.  For a dual reserve (`st = none`): hotel first;
if the band reserve raises after the hotel reserve succeeded, a
best-effort release of the hotel slot is attempted, with a
`warnRollbackFail` print if that release itself raises.  Note that the
hotel response stays truthy in that case, exactly as in the source. -/
def reserveSlotW (f : Oracle) (num : ℕ) (st : Option Side) (w : World) :
    (Bool × Bool) × World :=
  match st with
  | none =>
    match callResH f num w with
    | (false, w1) => ((false, false), w1)
    | (true, w1) =>
      match callResB f num w1 with
      | (true, w2) => ((true, true), w2)
      | (false, w2) =>
        match callRelH f num w2 with
        | (true, w3) => ((true, false), w3)
        | (false, w3) => ((true, false), pushE w3 (Event.warnRollbackFail num))
  | some Side.hotel =>
    match callResH f num w with
    | (ok, w1) => ((ok, false), w1)
  | some Side.band =>
    match callResB f num w with
    | (ok, w1) => ((false, ok), w1)

/-- `cancelSlot` (booking.py lines 356–417).  For a dual cancel
(`st = none`): release hotel then band; if the band release raises after
the hotel release succeeded, attempt to re-reserve the hotel slot as
compensation, printing the distinct `warnInconsistent` warning if the
compensation itself raises.  Returns `true` iff every requested release
succeeded. -/
def cancelSlotW (f : Oracle) (num : ℕ) (st : Option Side) (w : World) :
    Bool × World :=
  match st with
  | none =>
    match callRelH f num w with
    | (false, w1) => (false, w1)
    | (true, w1) =>
      match callRelB f num w1 with
      | (true, w2) => (true, w2)
      | (false, w2) =>
        match callResH f num w2 with
        | (true, w3) => (false, w3)
        | (false, w3) => (false, pushE w3 (Event.warnInconsistent num))
  | some Side.hotel =>
    match callRelH f num w with
    | (ok, w1) => (ok, w1)
  | some Side.band =>
    match callRelB f num w with
    | (ok, w1) => (ok, w1)

/-- An uninterrupted sequence of `hotel.release_slot` calls, one per list
element, with no per-slot exception handling: the first raise aborts the
rest (returned flag `true` = a call raised). -/
def releaseSweepH (f : Oracle) : List ℕ → World → Bool × World
  | [], w => (false, w)
  | n :: t, w =>
    match callRelH f n w with
    | (true, w1) => releaseSweepH f t w1
    | (false, w1) => (true, w1)

/-- An uninterrupted sequence of `band.release_slot` calls. -/
def releaseSweepB (f : Oracle) : List ℕ → World → Bool × World
  | [], w => (false, w)
  | n :: t, w =>
    match callRelB f n w with
    | (true, w1) => releaseSweepB f t w1
    | (false, w1) => (true, w1)

/-- `cancel_all_unmatched_slots` (booking.py lines 321–354): snapshot,
then release every unmatched hotel hold and every unmatched band hold,
with the whole body under a single try/except — the first raise aborts
the remaining releases, and the exception is caught at the function
boundary (reported, not re-raised).  Python iterates the unmatched sets
in an unspecified (hash-dependent) order; the model fixes one concrete
enumeration (`finSort`) as a representative, and no theorem asserts that
order as program behavior — order-sensitive loop facts are stated over
an arbitrary enumeration of `releaseSweepH`. -/
def cancelAllUnmatchedPyW (f : Oracle) (w : World) : World :=
  match viewCurrentSlotsW f w with
  | ((hh, hb), w1) =>
    match releaseSweepH f (finSort (hh \ hb)) w1 with
    | (true, w2) => w2
    | (false, w2) =>
      match releaseSweepB f (finSort (hb \ hh)) w2 with
      | (_, w3) => w3

/-- A sequence of paired releases (hotel then band per slot), as issued
by `BookingService.cancelAllUnmatchedSlots` lines 242–247, again with no
per-slot exception handling. -/
def pairSweep (f : Oracle) : List ℕ → World → World
  | [], w => w
  | n :: t, w =>
    match callRelH f n w with
    | (false, w1) => w1
    | (true, w1) =>
      match callRelB f n w1 with
      | (false, w2) => w2
      | (true, w2) => pairSweep f t w2

/-- `BookingService.cancelAllUnmatchedSlots` (booking_service.py lines
202–254): like the booking.py variant, but when more than one matched
pair is held it additionally keeps only the earliest pair and releases
every later pair on both services via direct release calls. -/
def cancelAllUnmatchedSvcW (f : Oracle) (w : World) : World :=
  match viewCurrentSlotsW f w with
  | ((hh, hb), w1) =>
    let matching := hh ∩ hb
    match releaseSweepH f (finSort (hh \ hb)) w1 with
    | (true, w2) => w2
    | (false, w2) =>
      match releaseSweepB f (finSort (hb \ hh)) w2 with
      | (true, w3) => w3
      | (false, w3) =>
        if h : 1 < matching.card then
          let earliest := matching.min' (Finset.card_pos.mp (by omega))
          pairSweep f (finSort (matching.erase earliest)) w3
        else w3

/-- Outcome of one iteration of the `reserveEarliestSlot` retry loop:
`success` / `fail` are the in-loop `return True` / `return False`;
`retry s` means the attempt counter is incremented and, if attempts
remain, the loop sleeps `s` seconds (1 for an ordinary failure, 2 when
the attempt body raised into the outer except handler). -/
inductive ARes where
  | success
  | fail
  | retry (secs : ℕ)
deriving DecidableEq, Repr

/-- Capacity cleanup inside an attempt (booking.py lines 206–226): when
either side holds ≥ 2 slots, release all unmatched holds on both sides
(direct calls — a raise propagates to the attempt's except handler,
signalled here as `.error`), then re-snapshot the held sets. -/
def capacityPhase (f : Oracle) (hh hb : Finset ℕ) (w : World) :
    Except World ((Finset ℕ × Finset ℕ) × World) :=
  if 2 ≤ hh.card ∨ 2 ≤ hb.card then
    match releaseSweepH f (finSort (hh \ hb)) w with
    | (true, w1) => .error w1
    | (false, w1) =>
      match releaseSweepB f (finSort (hb \ hh)) w1 with
      | (true, w2) => .error w2
      | (false, w2) => .ok (viewCurrentSlotsW f w2)
  else .ok ((hh, hb), w)

/-- Tail of an attempt after the reservation calls (booking.py lines
284–308): on success of both sides run the unmatched cleanup and return
True; otherwise roll back whichever side was newly acquired this attempt
(a raise during that rollback goes to the except handler — sleep 2 —
while the ordinary failure path sleeps 1). -/
def finishPhase (f : Oracle) (e : ℕ) (hr br newH newB : Bool) (w : World) :
    ARes × World :=
  if hr && br then
    (ARes.success, cancelAllUnmatchedPyW f w)
  else
    if newH && !br then
      match callRelH f e w with
      | (true, w1) => (ARes.retry 1, w1)
      | (false, w1) => (ARes.retry 2, w1)
    else if newB && !hr then
      match callRelB f e w with
      | (true, w1) => (ARes.retry 1, w1)
      | (false, w1) => (ARes.retry 2, w1)
    else (ARes.retry 1, w)

/-- Reservation step of an attempt (booking.py lines 253–282): reserve
only the sides not already held for the target `e`; a side already held
counts as trivially satisfied.  `newly_reserved_X` is the truthiness of
the corresponding response, exactly as in the source. -/
def reservePhase (f : Oracle) (hh hb : Finset ℕ) (e : ℕ) (w : World) :
    ARes × World :=
  if e ∉ hh then
    if e ∉ hb then
      match reserveSlotW f e none w with
      | ((hr, br), w1) => finishPhase f e hr br hr br w1
    else
      match reserveSlotW f e (some Side.hotel) w with
      | ((hr, _), w1) => finishPhase f e hr true hr false w1
  else if e ∉ hb then
    match reserveSlotW f e (some Side.band) w with
    | ((_, br), w1) => finishPhase f e true br false br w1
  else
    finishPhase f e false false false false w

/-- Middle of an attempt (booking.py lines 228–282): compute the
candidate list (empty ⇒ return False); if a matched pair is already held
whose minimum is ≤ the earliest candidate, return True immediately;
otherwise cancel the currently held earliest pair (result ignored) and
reserve the target. -/
def phaseMain (f : Oracle) (hh hb : Finset ℕ) (w : World) : ARes × World :=
  match viewFirst5W f w with
  | ([], w1) => (ARes.fail, w1)
  | (e :: _, w1) =>
    let matching := hh ∩ hb
    if hm : matching.Nonempty then
      if matching.min' hm ≤ e then (ARes.success, w1)
      else
        match cancelSlotW f (matching.min' hm) none w1 with
        | (_, w2) => reservePhase f hh hb e w2
    else reservePhase f hh hb e w1

/-- One full iteration of the `reserveEarliestSlot` while-loop body
(booking.py lines 188–315). -/
def attemptOnce (f : Oracle) (w : World) : ARes × World :=
  match viewCurrentSlotsW f w with
  | ((hh0, hb0), w1) =>
    match capacityPhase f hh0 hb0 w1 with
    | .error w2 => (ARes.retry 2, w2)
    | .ok ((hh, hb), w2) => phaseMain f hh hb w2

/-- The bounded retry loop of `reserveEarliestSlot`, recursing on the
remaining attempt budget: a retry with budget left logs the sleep and
retries; with the budget exhausted the loop exits, prints the final
failure message (`exhausted`) and returns False. -/
def loopAux (f : Oracle) : ℕ → World → Bool × World
  | 0, w => (false, pushE w Event.exhausted)
  | Nat.succ k, w =>
    match attemptOnce f w with
    | (ARes.success, w1) => (true, w1)
    | (ARes.fail, w1) => (false, w1)
    | (ARes.retry s, w1) =>
      match k with
      | 0 => (false, pushE w1 Event.exhausted)
      | Nat.succ k1 => loopAux f (Nat.succ k1) (pushE w1 (Event.sleepRetry s))

/-- `reserveEarliestSlot` (booking.py lines 180–318): at most 3 attempts. -/
def reserveEarliestSlot (f : Oracle) (w : World) : Bool × World :=
  loopAux f 3 w

/-- One slot of the in-memory test double `mock_reservation_api.py`. -/
structure MockSlot where
  available : Bool
  held_by_us : Bool
deriving DecidableEq, Repr

/-- The mock's slot ids: `range(1, 101)`. -/
def mockRange : Finset ℕ := Finset.Icc 1 100

/-- State of `MockReservationApi`: its fake database of slots. -/
structure MockApi where
  slots : ℕ → MockSlot

/-- The mock's constructor: every slot starts not-held, with an arbitrary
availability pattern (the source draws it at random). -/
def mockInit (avail0 : ℕ → Bool) : MockApi :=
  ⟨fun i => ⟨avail0 i, false⟩⟩

/-- `MockReservationApi.get_slots_available`: slots that are available
and not held by us, in key order. -/
def mockAvailList (m : MockApi) : List ℕ :=
  (finSort mockRange).filter fun i =>
    (m.slots i).available && !(m.slots i).held_by_us

/-- `MockReservationApi.get_slots_held`. -/
def mockHeldList (m : MockApi) : List ℕ :=
  (finSort mockRange).filter fun i => (m.slots i).held_by_us

/-- `MockReservationApi.release_slot`: BadSlot outside the range,
tolerated no-op when not held, otherwise mark not-held and available. -/
def mockRelease (m : MockApi) (slot_id : ℕ) : Except Unit MockApi :=
  if slot_id ∉ mockRange then .error ()
  else if !(m.slots slot_id).held_by_us then .ok m
  else .ok ⟨fun i => if i = slot_id then ⟨true, false⟩ else m.slots i⟩

/-- `MockReservationApi.reserve_slot`: BadSlot outside the range,
ReservationLimitError at ≥ 2 held, SlotUnavailableError when not
available, otherwise mark held and unavailable. -/
def mockReserve (m : MockApi) (slot_id : ℕ) : Except Unit MockApi :=
  if slot_id ∉ mockRange then .error ()
  else if 2 ≤ (mockRange.filter fun i => (m.slots i).held_by_us).card then .error ()
  else if !(m.slots slot_id).available then .error ()
  else .ok ⟨fun i => if i = slot_id then ⟨false, true⟩ else m.slots i⟩

/-- The mock's state invariant: no slot in range is simultaneously
available and held by us. -/
def MockInv (m : MockApi) : Prop :=
  ∀ i ∈ mockRange, ¬((m.slots i).available = true ∧ (m.slots i).held_by_us = true)

/-- Rate limiter state: the current wall-clock time and the shared
`last_request_time`, in seconds (rationals model `time.time()`). -/
structure RL where
  now : ℚ
  last : ℚ
deriving DecidableEq

/-- `enforce_rate_limit` (booking.py lines 30–45): if less than 1 second
elapsed since the last request, sleep for the remaining time (modelled as
advancing the clock), then update the last-request timestamp to the
current time. -/
def enforceRateLimit (st : RL) : RL :=
  let elapsed := st.now - st.last
  let st1 := if elapsed < 1 then { st with now := st.now + (1 - elapsed) } else st
  { st1 with last := st1.now }

/-- One subsequent call to the rate limiter after `d` seconds of other
activity. -/
def rlStep (st : RL) (d : ℚ) : RL :=
  enforceRateLimit { st with now := st.now + d }

/-- A sequence of rate-limited calls, each preceded by the listed delay. -/
def rlRun (st : RL) (ds : List ℚ) : RL :=
  ds.foldl rlStep st

/-- How many slots for id `n` the caller holds in `w'` but did not hold
in `w` — the "newly held" count of a coordinator operation. -/
def newlyHeld (w w' : World) (n : ℕ) : ℕ :=
  (if n ∈ w'.hotel.held ∧ n ∉ w.hotel.held then 1 else 0) +
    (if n ∈ w'.band.held ∧ n ∉ w.band.held then 1 else 0)

/-- C10: in `MockReservationApi`, every operation preserves the invariant
that no slot is simultaneously marked available and held_by_us — the
constructor establishes it, `reserve_slot` clears availability when
taking a hold, `release_slot` restores it (the list getters do not
mutate state) — and the available and held lists the mock reports are
disjoint. -/
theorem c10_mock_invariant :
    (∀ avail0 : ℕ → Bool, MockInv (mockInit avail0)) ∧
    (∀ (m : MockApi) (n : ℕ) (m' : MockApi), MockInv m →
      mockReserve m n = .ok m' → MockInv m') ∧
    (∀ (m : MockApi) (n : ℕ) (m' : MockApi), MockInv m →
      mockRelease m n = .ok m' → MockInv m') ∧
    (∀ (m : MockApi) (i : ℕ), i ∈ mockAvailList m → i ∉ mockHeldList m) := by
  refine ⟨?_, ?_, ?_, ?_⟩
  · intro avail0 i _hi
    simp [mockInit]
  · intro m n m' hInv h
    simp only [mockReserve] at h
    split at h
    · exact absurd h (by simp)
    · split at h
      · exact absurd h (by simp)
      · split at h
        · exact absurd h (by simp)
        · simp only [Except.ok.injEq] at h
          subst h
          intro i hi
          by_cases hin : i = n
          · subst hin; simp
          · simpa [hin] using hInv i hi
  · intro m n m' hInv h
    simp only [mockRelease] at h
    split at h
    · exact absurd h (by simp)
    · split at h
      · simp only [Except.ok.injEq] at h
        subst h
        exact hInv
      · simp only [Except.ok.injEq] at h
        subst h
        intro i hi
        by_cases hin : i = n
        · subst hin; simp
        · simpa [hin] using hInv i hi
  · intro m i hav
    simp only [mockAvailList, List.mem_filter] at hav
    simp only [mockHeldList, List.mem_filter]
    intro hheld
    simp only [Bool.and_eq_true, Bool.not_eq_true'] at hav
    exact absurd hheld.2 (by simp [hav.2.2])

/-- Helper: `viewFirst5Core` is the first five of the sorted candidate
union. -/
theorem viewFirst5Core_eq (aH aB hH hB : Finset ℕ) :
    viewFirst5Core aH aB hH hB = ((candidateUnion aH aB hH hB).sort (· ≤ ·)).take 5 := by
  show (finSort (aH ∩ aB ∪ hH ∩ aB ∪ hB ∩ aH)).take 5 = _
  rw [finSort_eq_sort]
  rfl

/-- C3: the matching-candidate computation returns exactly the first 5
elements, in strictly ascending order with no duplicates, of
(availableA ∩ availableB) ∪ (heldA ∩ availableB) ∪ (heldB ∩ availableA);
empty inputs yield an empty result, and with no fetch failure
`viewFirst5FreeSlots` returns exactly this computation on the fetched
sets. -/
theorem c3_candidate_set :
    (∀ aH aB hH hB : Finset ℕ,
      List.Sorted (· < ·) (viewFirst5Core aH aB hH hB) ∧
      (viewFirst5Core aH aB hH hB).Nodup ∧
      (∀ x ∈ viewFirst5Core aH aB hH hB, x ∈ candidateUnion aH aB hH hB) ∧
      (viewFirst5Core aH aB hH hB).length = min 5 (candidateUnion aH aB hH hB).card ∧
      (∀ x ∈ viewFirst5Core aH aB hH hB, ∀ y ∈ candidateUnion aH aB hH hB,
        y ∉ viewFirst5Core aH aB hH hB → x < y) ∧
      viewFirst5Core ∅ ∅ ∅ ∅ = []) ∧
    (∀ w : World, (viewFirst5W allOk w).1 =
      viewFirst5Core w.hotel.avail w.band.avail w.hotel.held w.band.held) := by
  constructor
  · intro aH aB hH hB
    set U := candidateUnion aH aB hH hB with hU
    set l := U.sort (· ≤ ·) with hl
    have hkey : viewFirst5Core aH aB hH hB = l.take 5 := viewFirst5Core_eq aH aB hH hB
    have hslt : List.Sorted (· < ·) l := Finset.sort_sorted_lt U
    have hsorted : List.Sorted (· < ·) (viewFirst5Core aH aB hH hB) := by
      rw [hkey]; exact hslt.sublist (List.take_sublist 5 l)
    refine ⟨hsorted, hsorted.nodup, ?_, ?_, ?_, ?_⟩
    · intro x hx
      rw [hkey] at hx
      exact (Finset.mem_sort (· ≤ ·)).mp (List.take_subset 5 l hx)
    · rw [hkey, List.length_take, Finset.length_sort]
    · intro x hx y hyU hyn
      rw [hkey] at hx hyn
      have hyl : y ∈ l := (Finset.mem_sort (· ≤ ·)).mpr hyU
      have hyd : y ∈ l.drop 5 := by
        have h2 : y ∈ l.take 5 ++ l.drop 5 := by rw [List.take_append_drop]; exact hyl
        rcases List.mem_append.mp h2 with h | h
        · exact absurd h hyn
        · exact h
      have hpw : List.Pairwise (· < ·) (l.take 5 ++ l.drop 5) := by
        rw [List.take_append_drop]; exact hslt
      exact (List.pairwise_append.mp hpw).2.2 x hx y hyd
    · rfl
  · intro w
    rfl

/-- C9: `enforce_rate_limit` waits exactly `max 0 (1 − elapsed)` (never
an unconditional full second), updates the shared last-request timestamp
to the return time, and hence across `N` consecutive calls at least
`N − 1` seconds of wall-clock time elapse. -/
theorem c9_rate_limiter :
    (∀ st : RL, (enforceRateLimit st).now - st.now = max 0 (1 - (st.now - st.last))) ∧
    (∀ st : RL, (enforceRateLimit st).last = (enforceRateLimit st).now) ∧
    (∀ (st : RL) (ds : List ℚ), st.last = st.now → (∀ d ∈ ds, 0 ≤ d) →
      st.now + ds.length ≤ (rlRun st ds).now) := by
  refine ⟨?_, ?_, ?_⟩
  · intro st
    simp only [enforceRateLimit]
    split
    · rename_i h
      have : (0 : ℚ) ≤ 1 - (st.now - st.last) := by linarith
      rw [max_eq_right this]
      ring
    · rename_i h
      have : 1 - (st.now - st.last) ≤ (0 : ℚ) := by linarith
      rw [max_eq_left this]
      ring
  · intro st
    rfl
  · intro st ds
    induction ds generalizing st with
    | nil => intro _ _; simp [rlRun]
    | cons d t ih =>
      intro hlast hpos
      have hd : (0 : ℚ) ≤ d := hpos d (by simp)
      have hrun : rlRun st (d :: t) = rlRun (rlStep st d) t := rfl
      have hstep_now : st.now + 1 ≤ (rlStep st d).now := by
        simp only [rlStep, enforceRateLimit, hlast]
        split
        · rename_i h
          simp only
          linarith
        · rename_i h
          simp only
          linarith
      have hstep_last : (rlStep st d).last = (rlStep st d).now := rfl
      have := ih (rlStep st d) hstep_last (fun x hx => hpos x (by simp [hx]))
      rw [hrun]
      simp only [List.length_cons] at *
      push_cast at this ⊢
      linarith

/-- Recognizer for a hotel-reserve event on slot `n`, any outcome. -/
def isResHn (n : ℕ) : Event → Bool
  | Event.resH m _ => m == n
  | _ => false

/-- C1: dual-service reserve attempts the hotel side first; if the hotel
reservation raises, the band reservation is never attempted; if the
hotel reservation succeeds and the band reservation raises, a
best-effort release of the hotel slot is attempted, so after any failed
dual reserve the caller newly holds 0 slots for `n` — except when the
compensating release itself fails, which is surfaced as a distinct
warning while the overall outcome remains failure. -/
theorem c1_dual_reserve_rollback (f : Oracle) (w : World) (n : ℕ) :
    (∃ t, ((reserveSlotW f n none w).2).log = w.log ++ Event.resH n (!f w.idx) :: t) ∧
    (f w.idx = true →
      ((reserveSlotW f n none w).2).log = w.log ++ [Event.resH n false] ∧
      (reserveSlotW f n none w).1 = (false, false) ∧
      newlyHeld w (reserveSlotW f n none w).2 n = 0) ∧
    (f w.idx = false → f (w.idx + 1) = true →
      Event.relH n (!f (w.idx + 2)) ∈ ((reserveSlotW f n none w).2).log ∧
      (reserveSlotW f n none w).1 = (true, false) ∧
      (f (w.idx + 2) = false → newlyHeld w (reserveSlotW f n none w).2 n = 0) ∧
      (f (w.idx + 2) = true →
        Event.warnRollbackFail n ∈ ((reserveSlotW f n none w).2).log)) ∧
    ((reserveSlotW f n none w).1 ≠ (true, true) →
      newlyHeld w (reserveSlotW f n none w).2 n = 0 ∨
      Event.warnRollbackFail n ∈ ((reserveSlotW f n none w).2).log) := by
  rcases h0 : f w.idx with _ | _
  · rcases h1 : f (w.idx + 1) with _ | _
    · -- hotel ok, band ok: success
      refine ⟨⟨Event.resB n true :: [], ?_⟩, by simp [h0], by simp [h1], ?_⟩
      · simp [reserveSlotW, callResH, callResB, h0, h1]
      · intro hne
        exact absurd (by simp [reserveSlotW, callResH, callResB, h0, h1]) hne
    · -- hotel ok, band raises: compensation
      rcases h2 : f (w.idx + 2) with _ | _
      · -- compensation succeeds
        refine ⟨⟨[Event.resB n false, Event.relH n true], ?_⟩, by simp [h0], ?_, ?_⟩
        · simp [reserveSlotW, callResH, callResB, callRelH, h0, h1, h2]
        · intro _ _
          refine ⟨?_, ?_, ?_, ?_⟩
          · simp [reserveSlotW, callResH, callResB, callRelH, h0, h1, h2]
          · simp [reserveSlotW, callResH, callResB, callRelH, h0, h1, h2]
          · intro _
            simp [reserveSlotW, callResH, callResB, callRelH, releaseEff, reserveEff,
              newlyHeld, h0, h1, h2]
          · intro hcontra
            simp [h2] at hcontra
        · intro _
          left
          simp [reserveSlotW, callResH, callResB, callRelH, releaseEff, reserveEff,
            newlyHeld, h0, h1, h2]
      · -- compensation fails: distinct warning
        refine ⟨⟨[Event.resB n false, Event.relH n false, Event.warnRollbackFail n], ?_⟩,
          by simp [h0], ?_, ?_⟩
        · simp [reserveSlotW, callResH, callResB, callRelH, pushE, h0, h1, h2]
        · intro _ _
          refine ⟨?_, ?_, ?_, ?_⟩
          · simp [reserveSlotW, callResH, callResB, callRelH, pushE, h0, h1, h2]
          · simp [reserveSlotW, callResH, callResB, callRelH, pushE, h0, h1, h2]
          · intro hcontra
            simp [h2] at hcontra
          · intro _
            simp [reserveSlotW, callResH, callResB, callRelH, pushE, h0, h1, h2]
        · intro _
          right
          simp [reserveSlotW, callResH, callResB, callRelH, pushE, h0, h1, h2]
  · -- hotel raises: nothing further attempted
    refine ⟨⟨[], ?_⟩, ?_, ?_, ?_⟩
    · simp [reserveSlotW, callResH, h0]
    · intro _
      refine ⟨?_, ?_, ?_⟩
      · simp [reserveSlotW, callResH, h0]
      · simp [reserveSlotW, callResH, h0]
      · simp [reserveSlotW, callResH, newlyHeld, h0]
    · intro hcontra
      simp [h0] at hcontra
    · intro _
      left
      simp [reserveSlotW, callResH, newlyHeld, h0]

/-- C6: dual-service cancel releases hotel then band; if the band
release raises after the hotel release succeeded, the hotel slot is
re-reserved as compensation, exactly once (no retrying), and if that
compensation itself raises the distinct "system may be in inconsistent
state" warning is emitted; the operation returns True iff every
requested release succeeded. -/
theorem c6_dual_cancel_compensation (f : Oracle) (w : World) (n : ℕ) :
    ((cancelSlotW f n none w).1 = true ↔ f w.idx = false ∧ f (w.idx + 1) = false) ∧
    (f w.idx = false →
      ∃ t, ((cancelSlotW f n none w).2).log =
        w.log ++ Event.relH n true :: Event.relB n (!f (w.idx + 1)) :: t) ∧
    (f w.idx = false → f (w.idx + 1) = true →
      Event.resH n (!f (w.idx + 2)) ∈ ((cancelSlotW f n none w).2).log ∧
      ((cancelSlotW f n none w).2).log.countP (fun e => isResHn n e) =
        w.log.countP (fun e => isResHn n e) + 1 ∧
      (f (w.idx + 2) = true →
        Event.warnInconsistent n ∈ ((cancelSlotW f n none w).2).log)) := by
  rcases h0 : f w.idx with _ | _
  · rcases h1 : f (w.idx + 1) with _ | _
    · -- both releases succeed
      refine ⟨?_, ?_, ?_⟩
      · simp [cancelSlotW, callRelH, callRelB, h0, h1]
      · intro _
        exact ⟨[], by simp [cancelSlotW, callRelH, callRelB, h0, h1]⟩
      · intro _ hcontra
        simp [h1] at hcontra
    · -- hotel release ok, band release raises: compensation
      rcases h2 : f (w.idx + 2) with _ | _
      · refine ⟨?_, ?_, ?_⟩
        · simp [cancelSlotW, callRelH, callRelB, callResH, h0, h1, h2]
        · intro _
          exact ⟨[Event.resH n true],
            by simp [cancelSlotW, callRelH, callRelB, callResH, h0, h1, h2]⟩
        · intro _ _
          refine ⟨?_, ?_, ?_⟩
          · simp [cancelSlotW, callRelH, callRelB, callResH, h0, h1, h2]
          · simp [cancelSlotW, callRelH, callRelB, callResH, h0, h1, h2,
              List.countP_append, isResHn]
          · intro hcontra
            simp [h2] at hcontra
      · refine ⟨?_, ?_, ?_⟩
        · simp [cancelSlotW, callRelH, callRelB, callResH, pushE, h0, h1, h2]
        · intro _
          exact ⟨[Event.resH n false, Event.warnInconsistent n],
            by simp [cancelSlotW, callRelH, callRelB, callResH, pushE, h0, h1, h2]⟩
        · intro _ _
          refine ⟨?_, ?_, ?_⟩
          · simp [cancelSlotW, callRelH, callRelB, callResH, pushE, h0, h1, h2]
          · simp [cancelSlotW, callRelH, callRelB, callResH, pushE, h0, h1, h2,
              List.countP_append, isResHn]
          · intro _
            simp [cancelSlotW, callRelH, callRelB, callResH, pushE, h0, h1, h2]
  · -- hotel release raises: overall failure, nothing else attempted
    refine ⟨?_, ?_, ?_⟩
    · simp [cancelSlotW, callRelH, h0]
    · intro hcontra
      simp [h0] at hcontra
    · intro hcontra
      simp [h0] at hcontra

/-- Membership in `finSort`. -/
theorem mem_finSort (s : Finset ℕ) (n : ℕ) : n ∈ finSort s ↔ n ∈ s := by
  rw [finSort_eq_sort]
  exact Finset.mem_sort (· ≤ ·)

/-- `finSort` recovers the set. -/
theorem toFinset_finSort (s : Finset ℕ) : (finSort s).toFinset = s := by
  rw [finSort_eq_sort]
  exact Finset.sort_toFinset (· ≤ ·) s

/-- A hotel release sweep either completes, logging one successful
release per listed slot, or stops at the first raising release, logging
the successful prefix and the one failure. -/
theorem releaseSweepH_spec (f : Oracle) :
    ∀ (l : List ℕ) (w : World),
      ((releaseSweepH f l w).1 = false ∧
        ((releaseSweepH f l w).2).log = w.log ++ l.map (fun m => Event.relH m true)) ∨
      (∃ k, ∃ hk : k < l.length,
        (releaseSweepH f l w).1 = true ∧
        ((releaseSweepH f l w).2).log =
          w.log ++ (l.take k).map (fun m => Event.relH m true) ++
            [Event.relH (l.get ⟨k, hk⟩) false]) := by
  intro l
  induction l with
  | nil => intro w; left; simp [releaseSweepH]
  | cons n t ih =>
    intro w
    rcases hc : f w.idx with _ | _
    · -- this release succeeds; recurse
      set w1 : World := { w with hotel := releaseEff w.hotel n, idx := w.idx + 1, log := w.log ++ [Event.relH n true] } with hw1
      have hstep : releaseSweepH f (n :: t) w = releaseSweepH f t w1 := by
        simp [releaseSweepH, callRelH, hc, hw1]
      have hlog1 : w1.log = w.log ++ [Event.relH n true] := rfl
      rcases ih w1 with ⟨hf, hlog⟩ | ⟨k, hk, hf, hlog⟩
      · left
        rw [hstep]
        refine ⟨hf, ?_⟩
        rw [hlog, hlog1]
        simp
      · right
        refine ⟨k + 1, Nat.succ_lt_succ hk, ?_, ?_⟩
        · rw [hstep]; exact hf
        · rw [hstep, hlog, hlog1]
          simp
    · -- this release raises: stop here
      right
      refine ⟨0, by simp, ?_, ?_⟩
      · simp [releaseSweepH, callRelH, hc]
      · simp [releaseSweepH, callRelH, hc]

/-- Band-side analogue of `releaseSweepH_spec`. -/
theorem releaseSweepB_spec (f : Oracle) :
    ∀ (l : List ℕ) (w : World),
      ((releaseSweepB f l w).1 = false ∧
        ((releaseSweepB f l w).2).log = w.log ++ l.map (fun m => Event.relB m true)) ∨
      (∃ k, ∃ hk : k < l.length,
        (releaseSweepB f l w).1 = true ∧
        ((releaseSweepB f l w).2).log =
          w.log ++ (l.take k).map (fun m => Event.relB m true) ++
            [Event.relB (l.get ⟨k, hk⟩) false]) := by
  intro l
  induction l with
  | nil => intro w; left; simp [releaseSweepB]
  | cons n t ih =>
    intro w
    rcases hc : f w.idx with _ | _
    · set w1 : World := { w with band := releaseEff w.band n, idx := w.idx + 1, log := w.log ++ [Event.relB n true] } with hw1
      have hstep : releaseSweepB f (n :: t) w = releaseSweepB f t w1 := by
        simp [releaseSweepB, callRelB, hc, hw1]
      have hlog1 : w1.log = w.log ++ [Event.relB n true] := rfl
      rcases ih w1 with ⟨hf, hlog⟩ | ⟨k, hk, hf, hlog⟩
      · left
        rw [hstep]
        refine ⟨hf, ?_⟩
        rw [hlog, hlog1]
        simp
      · right
        refine ⟨k + 1, Nat.succ_lt_succ hk, ?_, ?_⟩
        · rw [hstep]; exact hf
        · rw [hstep, hlog, hlog1]
          simp
    · right
      refine ⟨0, by simp, ?_, ?_⟩
      · simp [releaseSweepB, callRelB, hc]
      · simp [releaseSweepB, callRelB, hc]

/-- Snapshot under the fault-free oracle: returns the true held sets. -/
theorem viewCurrentSlotsW_allOk (w : World) :
    viewCurrentSlotsW allOk w = ((w.hotel.held, w.band.held), { w with idx := w.idx + 2, log := w.log ++ [Event.getHeldH true, Event.getHeldB true] }) := by
  simp [viewCurrentSlotsW, callGetHeldH, callGetHeldB, allOk]

/-- Candidate fetch under the fault-free oracle. -/
theorem viewFirst5W_allOk (w : World) :
    viewFirst5W allOk w = (viewFirst5Core w.hotel.avail w.band.avail w.hotel.held w.band.held, { w with idx := w.idx + 4, log := w.log ++ [Event.getAvailH true, Event.getAvailB true, Event.getHeldH true, Event.getHeldB true] }) := by
  simp [viewFirst5W, callGetAvailH, callGetAvailB, callGetHeldH, callGetHeldB, allOk]

/-- Dual cancel under the fault-free oracle. -/
theorem cancelSlotW_allOk (n : ℕ) (w : World) :
    cancelSlotW allOk n none w = (true, { w with hotel := releaseEff w.hotel n, band := releaseEff w.band n, idx := w.idx + 2, log := w.log ++ [Event.relH n true, Event.relB n true] }) := by
  simp [cancelSlotW, callRelH, callRelB, allOk]

/-- Dual reserve under the fault-free oracle. -/
theorem reserveSlotW_allOk (n : ℕ) (w : World) :
    reserveSlotW allOk n none w = ((true, true), { w with hotel := reserveEff w.hotel n, band := reserveEff w.band n, idx := w.idx + 2, log := w.log ++ [Event.resH n true, Event.resB n true] }) := by
  simp [reserveSlotW, callResH, callResB, allOk]

/-- Hotel sweep under the fault-free oracle: full completion. -/
theorem releaseSweepH_allOk (l : List ℕ) (w : World) :
    releaseSweepH allOk l w = (false, { w with hotel := ⟨w.hotel.avail ∪ l.toFinset, w.hotel.held \ l.toFinset⟩, idx := w.idx + l.length, log := w.log ++ l.map (fun m => Event.relH m true) }) := by
  induction l generalizing w with
  | nil => simp [releaseSweepH]
  | cons n t ih =>
    rw [show releaseSweepH allOk (n :: t) w = releaseSweepH allOk t { w with hotel := releaseEff w.hotel n, idx := w.idx + 1, log := w.log ++ [Event.relH n true] } from by simp [releaseSweepH, callRelH, allOk]]
    rw [ih]
    refine congrArg (Prod.mk false) (worldFieldsEq _ _ (svcFieldsEq _ _ ?_ ?_) rfl ?_ ?_)
    · ext x; simp [releaseEff] <;> tauto
    · ext x; simp [releaseEff] <;> tauto
    · show w.idx + 1 + t.length = w.idx + (t.length + 1)
      omega
    · simp

/-- Band sweep under the fault-free oracle. -/
theorem releaseSweepB_allOk (l : List ℕ) (w : World) :
    releaseSweepB allOk l w = (false, { w with band := ⟨w.band.avail ∪ l.toFinset, w.band.held \ l.toFinset⟩, idx := w.idx + l.length, log := w.log ++ l.map (fun m => Event.relB m true) }) := by
  induction l generalizing w with
  | nil => simp [releaseSweepB]
  | cons n t ih =>
    rw [show releaseSweepB allOk (n :: t) w = releaseSweepB allOk t { w with band := releaseEff w.band n, idx := w.idx + 1, log := w.log ++ [Event.relB n true] } from by simp [releaseSweepB, callRelB, allOk]]
    rw [ih]
    refine congrArg (Prod.mk false) (worldFieldsEq _ _ rfl (svcFieldsEq _ _ ?_ ?_) ?_ ?_)
    · ext x; simp [releaseEff] <;> tauto
    · ext x; simp [releaseEff] <;> tauto
    · show w.idx + 1 + t.length = w.idx + (t.length + 1)
      omega
    · simp

/-- Events emitted by a fault-free paired release sweep. -/
def pairEvents : List ℕ → List Event
  | [] => []
  | n :: t => Event.relH n true :: Event.relB n true :: pairEvents t

/-- Membership in the events of a fault-free paired sweep. -/
theorem mem_pairEvents (l : List ℕ) (n : ℕ) (hn : n ∈ l) :
    Event.relH n true ∈ pairEvents l ∧ Event.relB n true ∈ pairEvents l := by
  induction l with
  | nil => cases hn
  | cons m t ih =>
    rcases List.mem_cons.mp hn with h | h
    · subst h
      exact ⟨by simp [pairEvents], by simp [pairEvents]⟩
    · exact ⟨by simp [pairEvents, (ih h).1], by simp [pairEvents, (ih h).2]⟩

/-- Paired sweep under the fault-free oracle: releases each listed slot
on both services, logging a hotel and a band release per slot. -/
theorem pairSweep_allOk (l : List ℕ) (w : World) :
    pairSweep allOk l w = { w with hotel := ⟨w.hotel.avail ∪ l.toFinset, w.hotel.held \ l.toFinset⟩, band := ⟨w.band.avail ∪ l.toFinset, w.band.held \ l.toFinset⟩, idx := w.idx + 2 * l.length, log := w.log ++ pairEvents l } := by
  induction l generalizing w with
  | nil => simp [pairSweep, pairEvents]
  | cons n t ih =>
    rw [show pairSweep allOk (n :: t) w = pairSweep allOk t { w with hotel := releaseEff w.hotel n, band := releaseEff w.band n, idx := w.idx + 2, log := w.log ++ [Event.relH n true, Event.relB n true] } from by simp [pairSweep, callRelH, callRelB, allOk]]
    rw [ih]
    refine worldFieldsEq _ _ (svcFieldsEq _ _ ?_ ?_) (svcFieldsEq _ _ ?_ ?_) ?_ ?_
    · ext x; simp [releaseEff] <;> tauto
    · ext x; simp [releaseEff] <;> tauto
    · ext x; simp [releaseEff] <;> tauto
    · ext x; simp [releaseEff] <;> tauto
    · show w.idx + 2 + 2 * t.length = w.idx + 2 * (t.length + 1)
      omega
    · simp [pairEvents]

/-- Concrete state for refuting C4: two unmatched hotel holds, and the
third remote call (the release of the smaller hold) raises. -/
def w4cex : World := ⟨⟨∅, {1, 2}⟩, ⟨∅, ∅⟩, 0, []⟩

/-- Oracle for the C4 counterexample: only call number 2 raises. -/
def f4cex : Oracle := fun i => i == 2

/-- C4 counterexample: the fresh snapshot shows slot 2 as an unmatched
hotel hold, the release of slot 1 raises, and no release of slot 2 is
ever attempted — one slot's failure cut the sweep short, refuting the
claim that a release is attempted for every unmatched hold. -/
theorem c4_counterexample :
    (viewCurrentSlotsW f4cex w4cex).1 = ({1, 2}, ∅) ∧
    2 ∈ w4cex.hotel.held \ w4cex.band.held ∧
    Event.relH 1 false ∈ (cancelAllUnmatchedPyW f4cex w4cex).log ∧
    (∀ b, Event.relH 2 b ∉ (cancelAllUnmatchedPyW f4cex w4cex).log) ∧
    2 ∈ (cancelAllUnmatchedPyW f4cex w4cex).hotel.held := by
  decide

/-- C4 (amended): a release is attempted for the unmatched holds one at
a time, hotel side first then band, in whatever order the snapshot's
sets are enumerated (Python does not guarantee a set-iteration order, so
no order is asserted here: the loop conjunct is quantified over an
arbitrary enumeration).  When no release fails, every unmatched hold on
both sides receives a release call; but per-slot failures are not
isolated: for any enumeration, a raising release ends the loop with no
release attempted for the elements after it, and a failure in the hotel
sweep aborts the entire band sweep, the exception being caught at the
operation boundary (the function returns the partially swept state, with
no band release ever attempted, rather than propagating the error). -/
theorem c4_amended_sweep :
    (∀ (f : Oracle) (w : World) (hh hb : Finset ℕ) (w1 : World),
      viewCurrentSlotsW f w = ((hh, hb), w1) →
      (releaseSweepH f (finSort (hh \ hb)) w1).1 = false →
      (releaseSweepB f (finSort (hb \ hh))
          (releaseSweepH f (finSort (hh \ hb)) w1).2).1 = false →
      (∀ n ∈ hh \ hb, Event.relH n true ∈ (cancelAllUnmatchedPyW f w).log) ∧
      (∀ n ∈ hb \ hh, Event.relB n true ∈ (cancelAllUnmatchedPyW f w).log)) ∧
    (∀ (f : Oracle) (l : List ℕ) (w : World),
      ((releaseSweepH f l w).1 = false ∧
        ∀ n ∈ l, Event.relH n true ∈ ((releaseSweepH f l w).2).log) ∨
      (∃ k, ∃ hk : k < l.length,
        (releaseSweepH f l w).1 = true ∧
        ((releaseSweepH f l w).2).log =
          w.log ++ (l.take k).map (fun m => Event.relH m true) ++
            [Event.relH (l.get ⟨k, hk⟩) false])) ∧
    (∀ (f : Oracle) (w : World) (hh hb : Finset ℕ) (w1 : World),
      viewCurrentSlotsW f w = ((hh, hb), w1) →
      (releaseSweepH f (finSort (hh \ hb)) w1).1 = true →
      cancelAllUnmatchedPyW f w = (releaseSweepH f (finSort (hh \ hb)) w1).2 ∧
      (∀ (n : ℕ) (b : Bool),
        Event.relB n b ∈ (cancelAllUnmatchedPyW f w).log ↔ Event.relB n b ∈ w1.log)) := by
  refine ⟨?_, ?_, ?_⟩
  · intro f w hh hb w1 hsnap h1 h2
    rcases hH : releaseSweepH f (finSort (hh \ hb)) w1 with ⟨flH, w2⟩
    rw [hH] at h1 h2
    simp only at h1 h2
    subst h1
    rcases hB : releaseSweepB f (finSort (hb \ hh)) w2 with ⟨flB, w3⟩
    rw [hB] at h2
    simp only at h2
    subst h2
    have hfun : cancelAllUnmatchedPyW f w = w3 := by
      simp [cancelAllUnmatchedPyW, hsnap, hH, hB]
    rcases releaseSweepH_spec f (finSort (hh \ hb)) w1 with ⟨_, hlog2⟩ | ⟨k, hk, hfl, _⟩
    · rcases releaseSweepB_spec f (finSort (hb \ hh)) w2 with ⟨_, hlog3⟩ | ⟨k, hk, hfl, _⟩
      · rw [hH] at hlog2
        rw [hB] at hlog3
        simp only at hlog2 hlog3
        constructor
        · intro n hn
          have hmem : Event.relH n true ∈
              (finSort (hh \ hb)).map (fun m => Event.relH m true) :=
            List.mem_map_of_mem _ ((mem_finSort _ n).mpr hn)
          rw [hfun, hlog3, hlog2]
          simp only [List.mem_append]
          exact Or.inl (Or.inr hmem)
        · intro n hn
          have hmem : Event.relB n true ∈
              (finSort (hb \ hh)).map (fun m => Event.relB m true) :=
            List.mem_map_of_mem _ ((mem_finSort _ n).mpr hn)
          rw [hfun, hlog3]
          simp only [List.mem_append]
          exact Or.inr hmem
      · rw [hB] at hfl
        simp at hfl
    · rw [hH] at hfl
      simp at hfl
  · intro f l w
    rcases releaseSweepH_spec f l w with ⟨hfl, hlog⟩ | h
    · left
      refine ⟨hfl, fun n hn => ?_⟩
      rw [hlog]
      exact List.mem_append.mpr (Or.inr (List.mem_map_of_mem _ hn))
    · right
      exact h
  · intro f w hh hb w1 hsnap h1
    rcases hH : releaseSweepH f (finSort (hh \ hb)) w1 with ⟨flH, w2⟩
    rw [hH] at h1
    simp only at h1
    subst h1
    have hfun : cancelAllUnmatchedPyW f w = w2 := by
      simp [cancelAllUnmatchedPyW, hsnap, hH]
    constructor
    · rw [hfun]
    · rcases releaseSweepH_spec f (finSort (hh \ hb)) w1 with ⟨hfl, _⟩ | ⟨k, hk, _, hlog⟩
      · rw [hH] at hfl
        simp at hfl
      · rw [hH] at hlog
        simp only at hlog
        intro n b
        rw [hfun, hlog]
        simp only [List.mem_append, List.mem_singleton]
        constructor
        · rintro ((h | h) | h)
          · exact h
          · rcases List.mem_map.mp h with ⟨m, _, hm⟩
            exact absurd hm (by simp)
          · exact absurd h (by simp)
        · intro h
          exact Or.inl (Or.inl h)

/-- Concrete state for refuting C5: matched pairs at slots 1 and 2. -/
def w5cex : World := ⟨⟨∅, {1, 2}⟩, ⟨∅, {1, 2}⟩, 0, []⟩

/-- C5 counterexample: with matched pairs {1, 2} in the snapshot and no
call failing, booking.py's `cancel_all_unmatched_slots` — one of the two
functions the claim is about — never attempts to cancel the later pair 2
(no release of 2 on either service) and leaves it held on both, refuting
the claim that the cleanup cancels every later pair. -/
theorem c5_counterexample :
    (viewCurrentSlotsW allOk w5cex).1 = ({1, 2}, {1, 2}) ∧
    2 ∈ w5cex.hotel.held ∩ w5cex.band.held ∧ 1 ∈ w5cex.hotel.held ∩ w5cex.band.held ∧
    1 < 2 ∧
    (∀ b, Event.relH 2 b ∉ (cancelAllUnmatchedPyW allOk w5cex).log) ∧
    (∀ b, Event.relB 2 b ∉ (cancelAllUnmatchedPyW allOk w5cex).log) ∧
    2 ∈ (cancelAllUnmatchedPyW allOk w5cex).hotel.held ∩
        (cancelAllUnmatchedPyW allOk w5cex).band.held := by
  decide

/-- C5 (amended): only `BookingService.cancelAllUnmatchedSlots` prunes
extra matched pairs: when its fresh snapshot shows more than one matched
pair and no release fails, it keeps exactly the numerically earliest
pair and releases every later pair on both services via direct paired
hotel-then-band release calls (not via the compensating atomic dual
cancel); booking.py's `cancel_all_unmatched_slots` performs no such
pruning and leaves all matched pairs held. -/
theorem c5_amended_prune (w : World) (m : ℕ)
    (hm : m ∈ w.hotel.held ∩ w.band.held)
    (hmin : ∀ q ∈ w.hotel.held ∩ w.band.held, m ≤ q)
    (hcard : 1 < (w.hotel.held ∩ w.band.held).card) :
    ((cancelAllUnmatchedSvcW allOk w).hotel.held ∩
        (cancelAllUnmatchedSvcW allOk w).band.held = {m}) ∧
    (∀ q ∈ w.hotel.held ∩ w.band.held, q ≠ m →
      Event.relH q true ∈ (cancelAllUnmatchedSvcW allOk w).log ∧
      Event.relB q true ∈ (cancelAllUnmatchedSvcW allOk w).log) ∧
    ((cancelAllUnmatchedPyW allOk w).hotel.held ∩
        (cancelAllUnmatchedPyW allOk w).band.held = w.hotel.held ∩ w.band.held) := by
  have hmin' : ∀ hne, (w.hotel.held ∩ w.band.held).min' hne = m :=
    fun hne => le_antisymm (Finset.min'_le _ _ hm) (hmin _ (Finset.min'_mem _ hne))
  refine ⟨?_, ?_, ?_⟩
  · simp only [cancelAllUnmatchedSvcW, viewCurrentSlotsW_allOk, releaseSweepH_allOk,
      releaseSweepB_allOk]
    rw [dif_pos hcard, hmin', pairSweep_allOk]
    simp only [toFinset_finSort]
    rw [Finset.sdiff_sdiff_self_left, Finset.sdiff_sdiff_self_left,
      Finset.inter_comm w.band.held w.hotel.held, Finset.sdiff_erase_self hm,
      Finset.inter_self]
  · intro q hq hqne
    have hqmem : q ∈ finSort ((w.hotel.held ∩ w.band.held).erase m) :=
      (mem_finSort _ q).mpr (Finset.mem_erase.mpr ⟨hqne, hq⟩)
    have hpe := mem_pairEvents _ q hqmem
    simp only [cancelAllUnmatchedSvcW, viewCurrentSlotsW_allOk, releaseSweepH_allOk,
      releaseSweepB_allOk]
    rw [dif_pos hcard, hmin', pairSweep_allOk]
    constructor
    · simp only [List.mem_append]
      exact Or.inr hpe.1
    · simp only [List.mem_append]
      exact Or.inr hpe.2
  · simp only [cancelAllUnmatchedPyW, viewCurrentSlotsW_allOk, releaseSweepH_allOk,
      releaseSweepB_allOk]
    simp only [toFinset_finSort]
    rw [Finset.sdiff_sdiff_self_left, Finset.sdiff_sdiff_self_left,
      Finset.inter_comm w.band.held w.hotel.held, Finset.inter_self]

/-- C8: within an attempt, once the candidate list is computed, if the
caller already holds a matched pair whose id is ≤ the earliest
candidate, the attempt returns success immediately, with the world
exactly as it was after the candidate fetch — no further reservation or
cancellation call is issued — and an attempt returning success makes the
whole `reserveEarliestSlot` call return True with that same final
state. -/
theorem c8_already_optimal :
    (∀ (f : Oracle) (hh hb : Finset ℕ) (w w1 : World) (e : ℕ) (rest : List ℕ),
      viewFirst5W f w = (e :: rest, w1) →
      ∀ p ∈ hh ∩ hb, p ≤ e →
      phaseMain f hh hb w = (ARes.success, w1)) ∧
    (∀ (f : Oracle) (w w1 : World),
      attemptOnce f w = (ARes.success, w1) →
      reserveEarliestSlot f w = (true, w1)) := by
  constructor
  · intro f hh hb w w1 e rest hview p hp hpe
    have hne : (hh ∩ hb).Nonempty := ⟨p, hp⟩
    have hle : (hh ∩ hb).min' hne ≤ e := le_trans (Finset.min'_le _ _ hp) hpe
    simp only [phaseMain, hview]
    rw [dif_pos hne, if_pos hle]
  · intro f w w1 h
    show loopAux f 3 w = (true, w1)
    simp only [loopAux, h]

/-- Held sets after a fault-free unmatched cleanup: each side keeps
exactly the matched pairs. -/
theorem cancelAllUnmatchedPyW_allOk_held (w : World) :
    (cancelAllUnmatchedPyW allOk w).hotel.held = w.hotel.held ∩ w.band.held ∧
    (cancelAllUnmatchedPyW allOk w).band.held = w.band.held ∩ w.hotel.held := by
  simp only [cancelAllUnmatchedPyW, viewCurrentSlotsW_allOk, releaseSweepH_allOk,
    releaseSweepB_allOk]
  constructor
  · simp only [toFinset_finSort]
    rw [Finset.sdiff_sdiff_self_left]
  · simp only [toFinset_finSort]
    rw [Finset.sdiff_sdiff_self_left]

/-- Fault-free attempt middle phase when exactly the pair `p` is held on
both sides: either no candidates (fail) or success, and on success every
matched pair finally held is ≤ p. -/
theorem phaseMain_allOk_single (w : World) (p : ℕ)
    (hH : w.hotel.held = {p}) (hB : w.band.held = {p}) :
    (∃ w', phaseMain allOk {p} {p} w = (ARes.fail, w')) ∨
    (∃ w', phaseMain allOk {p} {p} w = (ARes.success, w') ∧
      ∀ q ∈ w'.hotel.held ∩ w'.band.held, q ≤ p) := by
  rcases hcand : viewFirst5Core w.hotel.avail w.band.avail w.hotel.held w.band.held
    with _ | ⟨e, rest⟩
  · left
    refine ⟨{ w with idx := w.idx + 4, log := w.log ++ [Event.getAvailH true, Event.getAvailB true, Event.getHeldH true, Event.getHeldB true] }, ?_⟩
    simp only [phaseMain, viewFirst5W_allOk, hcand]
  · by_cases hpe : p ≤ e
    · right
      refine ⟨{ w with idx := w.idx + 4, log := w.log ++ [Event.getAvailH true, Event.getAvailB true, Event.getHeldH true, Event.getHeldB true] }, ?_, ?_⟩
      · simp only [phaseMain, viewFirst5W_allOk, hcand, Finset.inter_self]
        rw [dif_pos (Finset.singleton_nonempty p)]
        simp only [Finset.min'_singleton]
        rw [if_pos hpe]
      · intro q hq
        simp only [hH, hB, Finset.inter_self, Finset.mem_singleton] at hq
        exact le_of_eq hq
    · have hlt : e < p := lt_of_not_le hpe
      have hnep : e ∉ ({p} : Finset ℕ) := Finset.not_mem_singleton.mpr (ne_of_lt hlt)
      right
      have hstep : phaseMain allOk {p} {p} w =
          reservePhase allOk {p} {p} e
            (cancelSlotW allOk p none
              { w with idx := w.idx + 4, log := w.log ++ [Event.getAvailH true,
                Event.getAvailB true, Event.getHeldH true, Event.getHeldB true] }).2 := by
        simp only [phaseMain, viewFirst5W_allOk, hcand, Finset.inter_self]
        rw [dif_pos (Finset.singleton_nonempty p)]
        simp only [Finset.min'_singleton]
        rw [if_neg hpe]
      rw [hstep, cancelSlotW_allOk]
      simp only [reservePhase]
      rw [if_pos hnep, if_pos hnep, reserveSlotW_allOk]
      simp only [finishPhase, Bool.and_self, if_pos]
      refine ⟨_, rfl, ?_⟩
      intro q hq
      have hheld := cancelAllUnmatchedPyW_allOk_held
        { hotel := reserveEff (releaseEff w.hotel p) e,
          band := reserveEff (releaseEff w.band p) e,
          idx := w.idx + 4 + 2 + 2,
          log := ((w.log ++ [Event.getAvailH true, Event.getAvailB true,
            Event.getHeldH true, Event.getHeldB true]) ++
            [Event.relH p true, Event.relB p true]) ++
            [Event.resH e true, Event.resB e true] }
      rw [hheld.1, hheld.2] at hq
      simp only [reserveEff, releaseEff, hH, hB, Finset.erase_singleton,
        Finset.inter_self, Finset.mem_inter, Finset.mem_insert,
        Finset.not_mem_empty, or_false] at hq
      omega

/-- Fault-free attempt when exactly the pair `p` is held on both sides:
fail (no candidates) or success with every finally held pair ≤ p. -/
theorem attemptOnce_allOk_single (w : World) (p : ℕ)
    (hpair : w.hotel.held ∩ w.band.held = {p}) :
    (∃ w', attemptOnce allOk w = (ARes.fail, w')) ∨
    (∃ w', attemptOnce allOk w = (ARes.success, w') ∧
      ∀ q ∈ w'.hotel.held ∩ w'.band.held, q ≤ p) := by
  have hpHB : p ∈ w.hotel.held ∩ w.band.held := by
    rw [hpair]; exact Finset.mem_singleton_self p
  have hpH : p ∈ w.hotel.held := (Finset.mem_inter.mp hpHB).1
  have hpB : p ∈ w.band.held := (Finset.mem_inter.mp hpHB).2
  have hred : attemptOnce allOk w =
      (match capacityPhase allOk w.hotel.held w.band.held
          { w with idx := w.idx + 2, log := w.log ++ [Event.getHeldH true, Event.getHeldB true] } with
        | .error w2 => (ARes.retry 2, w2)
        | .ok ((hh, hb), w2) => phaseMain allOk hh hb w2) := by
    simp only [attemptOnce, viewCurrentSlotsW_allOk]
  rcases hcp : capacityPhase allOk w.hotel.held w.band.held
      { w with idx := w.idx + 2, log := w.log ++ [Event.getHeldH true, Event.getHeldB true] }
    with w2 | ⟨⟨hh, hb⟩, w2⟩
  · exfalso
    by_cases hcap : 2 ≤ w.hotel.held.card ∨ 2 ≤ w.band.held.card
    · rw [capacityPhase, if_pos hcap] at hcp
      simp only [releaseSweepH_allOk, releaseSweepB_allOk, viewCurrentSlotsW_allOk] at hcp
      exact Except.noConfusion hcp
    · rw [capacityPhase, if_neg hcap] at hcp
      exact Except.noConfusion hcp
  · have hfacts : hh = {p} ∧ hb = {p} ∧ w2.hotel.held = {p} ∧ w2.band.held = {p} := by
      by_cases hcap : 2 ≤ w.hotel.held.card ∨ 2 ≤ w.band.held.card
      · rw [capacityPhase, if_pos hcap] at hcp
        simp only [releaseSweepH_allOk, releaseSweepB_allOk, viewCurrentSlotsW_allOk,
          Except.ok.injEq, Prod.mk.injEq] at hcp
        obtain ⟨⟨hhh, hbb⟩, hw2⟩ := hcp
        have hA : w.hotel.held \ (finSort (w.hotel.held \ w.band.held)).toFinset = {p} := by
          rw [toFinset_finSort, Finset.sdiff_sdiff_self_left, hpair]
        have hBB : w.band.held \ (finSort (w.band.held \ w.hotel.held)).toFinset = {p} := by
          rw [toFinset_finSort, Finset.sdiff_sdiff_self_left, Finset.inter_comm, hpair]
        refine ⟨?_, ?_, ?_, ?_⟩
        · rw [← hhh, hA]
        · rw [← hbb, hBB]
        · rw [← hw2]
          exact hA
        · rw [← hw2]
          exact hBB
      · rw [capacityPhase, if_neg hcap] at hcp
        simp only [Except.ok.injEq, Prod.mk.injEq] at hcp
        obtain ⟨⟨hhh, hbb⟩, hw2⟩ := hcp
        push_neg at hcap
        have hHp : w.hotel.held = {p} :=
          Finset.eq_singleton_iff_unique_mem.mpr
            ⟨hpH, fun x hx => Finset.card_le_one.mp (by omega) x hx p hpH⟩
        have hBp : w.band.held = {p} :=
          Finset.eq_singleton_iff_unique_mem.mpr
            ⟨hpB, fun x hx => Finset.card_le_one.mp (by omega) x hx p hpB⟩
        refine ⟨hhh ▸ hHp, hbb ▸ hBp, ?_, ?_⟩
        · rw [← hw2]
          exact hHp
        · rw [← hw2]
          exact hBp
    obtain ⟨hhp, hbp, h2H, h2B⟩ := hfacts
    subst hhp hbp
    have hfinal : attemptOnce allOk w = phaseMain allOk {p} {p} w2 := by
      rw [hred, hcp]
    rcases phaseMain_allOk_single w2 p h2H h2B with ⟨w', hw'⟩ | ⟨w', hw', hbound⟩
    · left
      exact ⟨w', by rw [hfinal, hw']⟩
    · right
      exact ⟨w', by rw [hfinal, hw'], hbound⟩

/-- C2 (amended): if the caller's matched pairs at the start are exactly
`{p}` and no remote call raises during the run, then a successful
`reserveEarliestSlot` never leaves the caller holding a matched pair
later than `p`. -/
theorem c2_amended_monotone (w : World) (p : ℕ)
    (hpair : w.hotel.held ∩ w.band.held = {p})
    (hres : (reserveEarliestSlot allOk w).1 = true) :
    ∀ q ∈ (reserveEarliestSlot allOk w).2.hotel.held ∩
        (reserveEarliestSlot allOk w).2.band.held, q ≤ p := by
  rcases attemptOnce_allOk_single w p hpair with ⟨w', hw'⟩ | ⟨w', hw', hbound⟩
  · have hfalse : reserveEarliestSlot allOk w = (false, w') := by
      show loopAux allOk 3 w = _
      simp only [loopAux, hw']
    rw [hfalse] at hres
    exact absurd hres (by simp)
  · have heq : reserveEarliestSlot allOk w = (true, w') := by
      show loopAux allOk 3 w = _
      simp only [loopAux, hw']
    rw [heq]
    exact hbound

/-- Concrete state for refuting C2: pair 1 held on both sides, slot 4
available on both sides. -/
def w2cex : World := ⟨⟨{4}, {1}⟩, ⟨{4}, {1}⟩, 0, []⟩

/-- Oracle for the C2 counterexample: only the very first remote call —
the held-slots snapshot at the start of the attempt — raises. -/
def f2cex : Oracle := fun i => i == 0

/-- C2 counterexample: the caller already holds the matched pair 1; the
held-snapshot raises (caught, treated as holding nothing), so the
attempt reserves the later pair 4 on both sides and returns True while
pair 1 is still held — the run ends holding matched pair 4 > 1,
refuting the claim as stated. -/
theorem c2_counterexample :
    1 ∈ w2cex.hotel.held ∩ w2cex.band.held ∧
    (reserveEarliestSlot f2cex w2cex).1 = true ∧
    4 ∈ (reserveEarliestSlot f2cex w2cex).2.hotel.held ∩
        (reserveEarliestSlot f2cex w2cex).2.band.held ∧
    1 < 4 := by
  decide

/-- Events that are neither the retry sleep nor the final exhaustion
print. -/
def EventBenign : Event → Bool
  | Event.sleepRetry _ => false
  | Event.exhausted => false
  | _ => true

/-- Retry sleeps recorded in a log. -/
def countSleeps (l : List Event) : ℕ :=
  l.countP fun e => match e with
    | Event.sleepRetry _ => true
    | _ => false

/-- `w'` extends `w`'s log by benign events only. -/
def LogExtends (w w' : World) : Prop :=
  ∃ t, w'.log = w.log ++ t ∧ ∀ e ∈ t, EventBenign e = true

/-- Log extension is reflexive. -/
theorem logExtends_rfl (w : World) : LogExtends w w :=
  ⟨[], by simp, by simp⟩

/-- Log extension is transitive. -/
theorem logExtends_trans {w w' w'' : World} (h1 : LogExtends w w')
    (h2 : LogExtends w' w'') : LogExtends w w'' := by
  obtain ⟨t1, e1, b1⟩ := h1
  obtain ⟨t2, e2, b2⟩ := h2
  refine ⟨t1 ++ t2, by rw [e2, e1, List.append_assoc], ?_⟩
  intro e he
  rcases List.mem_append.mp he with h | h
  · exact b1 e h
  · exact b2 e h

/-- Benign log extensions add no retry sleeps. -/
theorem logExtends_countSleeps {w w' : World} (h : LogExtends w w') :
    countSleeps w'.log = countSleeps w.log := by
  obtain ⟨t, he, hb⟩ := h
  rw [he, countSleeps, List.countP_append]
  have : t.countP (fun e => match e with | Event.sleepRetry _ => true | _ => false) = 0 := by
    rw [List.countP_eq_zero]
    intro e het
    have := hb e het
    cases e <;> simp_all [EventBenign]
  rw [countSleeps, this]
  omega

/-- Benign log extensions add no exhaustion print. -/
theorem logExtends_exhausted {w w' : World} (h : LogExtends w w') :
    Event.exhausted ∈ w'.log ↔ Event.exhausted ∈ w.log := by
  obtain ⟨t, he, hb⟩ := h
  rw [he, List.mem_append]
  constructor
  · rintro (h | h)
    · exact h
    · have := hb _ h
      simp [EventBenign] at this
  · exact Or.inl

/-- `reserve_slot` on the hotel extends the log benignly. -/
theorem benign_callResH (f : Oracle) (n : ℕ) (w : World) :
    LogExtends w (callResH f n w).2 := by
  refine ⟨[Event.resH n (!(f w.idx))], ?_, by simp [EventBenign]⟩
  rcases hc : f w.idx with _ | _ <;> simp [callResH, hc]

/-- `reserve_slot` on the band extends the log benignly. -/
theorem benign_callResB (f : Oracle) (n : ℕ) (w : World) :
    LogExtends w (callResB f n w).2 := by
  refine ⟨[Event.resB n (!(f w.idx))], ?_, by simp [EventBenign]⟩
  rcases hc : f w.idx with _ | _ <;> simp [callResB, hc]

/-- `release_slot` on the hotel extends the log benignly. -/
theorem benign_callRelH (f : Oracle) (n : ℕ) (w : World) :
    LogExtends w (callRelH f n w).2 := by
  refine ⟨[Event.relH n (!(f w.idx))], ?_, by simp [EventBenign]⟩
  rcases hc : f w.idx with _ | _ <;> simp [callRelH, hc]

/-- `release_slot` on the band extends the log benignly. -/
theorem benign_callRelB (f : Oracle) (n : ℕ) (w : World) :
    LogExtends w (callRelB f n w).2 := by
  refine ⟨[Event.relB n (!(f w.idx))], ?_, by simp [EventBenign]⟩
  rcases hc : f w.idx with _ | _ <;> simp [callRelB, hc]

/-- `get_slots_available` on the hotel extends the log benignly. -/
theorem benign_callGetAvailH (f : Oracle) (w : World) :
    LogExtends w (callGetAvailH f w).2 := by
  refine ⟨[Event.getAvailH (!(f w.idx))], ?_, by simp [EventBenign]⟩
  rcases hc : f w.idx with _ | _ <;> simp [callGetAvailH, hc]

/-- `get_slots_available` on the band extends the log benignly. -/
theorem benign_callGetAvailB (f : Oracle) (w : World) :
    LogExtends w (callGetAvailB f w).2 := by
  refine ⟨[Event.getAvailB (!(f w.idx))], ?_, by simp [EventBenign]⟩
  rcases hc : f w.idx with _ | _ <;> simp [callGetAvailB, hc]

/-- `get_slots_held` on the hotel extends the log benignly. -/
theorem benign_callGetHeldH (f : Oracle) (w : World) :
    LogExtends w (callGetHeldH f w).2 := by
  refine ⟨[Event.getHeldH (!(f w.idx))], ?_, by simp [EventBenign]⟩
  rcases hc : f w.idx with _ | _ <;> simp [callGetHeldH, hc]

/-- `get_slots_held` on the band extends the log benignly. -/
theorem benign_callGetHeldB (f : Oracle) (w : World) :
    LogExtends w (callGetHeldB f w).2 := by
  refine ⟨[Event.getHeldB (!(f w.idx))], ?_, by simp [EventBenign]⟩
  rcases hc : f w.idx with _ | _ <;> simp [callGetHeldB, hc]

/-- A benign `pushE` extends the log benignly. -/
theorem benign_pushE (w : World) (e : Event) (hb : EventBenign e = true) :
    LogExtends w (pushE w e) :=
  ⟨[e], rfl, by simpa using hb⟩

/-- `viewCurrentSlots` extends the log benignly. -/
theorem benign_viewCurrentSlotsW (f : Oracle) (w : World) :
    LogExtends w (viewCurrentSlotsW f w).2 := by
  rcases h1 : callGetHeldH f w with ⟨r1, w1⟩
  have b1 := benign_callGetHeldH f w
  rw [h1] at b1
  rcases r1 with _ | hs
  · simp only [viewCurrentSlotsW, h1]
    exact b1
  · rcases h2 : callGetHeldB f w1 with ⟨r2, w2⟩
    have b2 := benign_callGetHeldB f w1
    rw [h2] at b2
    rcases r2 with _ | bs
    · simp only [viewCurrentSlotsW, h1, h2]
      exact logExtends_trans b1 b2
    · simp only [viewCurrentSlotsW, h1, h2]
      exact logExtends_trans b1 b2

/-- `viewFirst5FreeSlots` extends the log benignly. -/
theorem benign_viewFirst5W (f : Oracle) (w : World) :
    LogExtends w (viewFirst5W f w).2 := by
  rcases h1 : callGetAvailH f w with ⟨r1, w1⟩
  have b1 := benign_callGetAvailH f w
  rw [h1] at b1
  rcases r1 with _ | aH
  · simp only [viewFirst5W, h1]
    exact b1
  · rcases h2 : callGetAvailB f w1 with ⟨r2, w2⟩
    have b2 := benign_callGetAvailB f w1
    rw [h2] at b2
    rcases r2 with _ | aB
    · simp only [viewFirst5W, h1, h2]
      exact logExtends_trans b1 b2
    · rcases h3 : callGetHeldH f w2 with ⟨r3, w3⟩
      have b3 := benign_callGetHeldH f w2
      rw [h3] at b3
      rcases r3 with _ | hH
      · simp only [viewFirst5W, h1, h2, h3]
        exact logExtends_trans b1 (logExtends_trans b2 b3)
      · rcases h4 : callGetHeldB f w3 with ⟨r4, w4⟩
        have b4 := benign_callGetHeldB f w3
        rw [h4] at b4
        rcases r4 with _ | hB
        · simp only [viewFirst5W, h1, h2, h3, h4]
          exact logExtends_trans b1 (logExtends_trans b2 (logExtends_trans b3 b4))
        · simp only [viewFirst5W, h1, h2, h3, h4]
          exact logExtends_trans b1 (logExtends_trans b2 (logExtends_trans b3 b4))

/-- `reserveSlot` extends the log benignly, for every service choice. -/
theorem benign_reserveSlotW (f : Oracle) (n : ℕ) (st : Option Side) (w : World) :
    LogExtends w (reserveSlotW f n st w).2 := by
  rcases st with _ | s
  · rcases h1 : callResH f n w with ⟨r1, w1⟩
    have b1 := benign_callResH f n w
    rw [h1] at b1
    rcases r1 with _ | _
    · simp only [reserveSlotW, h1]
      exact b1
    · rcases h2 : callResB f n w1 with ⟨r2, w2⟩
      have b2 := benign_callResB f n w1
      rw [h2] at b2
      rcases r2 with _ | _
      · rcases h3 : callRelH f n w2 with ⟨r3, w3⟩
        have b3 := benign_callRelH f n w2
        rw [h3] at b3
        rcases r3 with _ | _
        · simp only [reserveSlotW, h1, h2, h3]
          exact logExtends_trans b1 (logExtends_trans b2
            (logExtends_trans b3 (benign_pushE _ _ rfl)))
        · simp only [reserveSlotW, h1, h2, h3]
          exact logExtends_trans b1 (logExtends_trans b2 b3)
      · simp only [reserveSlotW, h1, h2]
        exact logExtends_trans b1 b2
  · rcases s with _ | _
    · rcases h1 : callResH f n w with ⟨r1, w1⟩
      have b1 := benign_callResH f n w
      rw [h1] at b1
      simp only [reserveSlotW, h1]
      exact b1
    · rcases h1 : callResB f n w with ⟨r1, w1⟩
      have b1 := benign_callResB f n w
      rw [h1] at b1
      simp only [reserveSlotW, h1]
      exact b1

/-- `cancelSlot` extends the log benignly, for every service choice. -/
theorem benign_cancelSlotW (f : Oracle) (n : ℕ) (st : Option Side) (w : World) :
    LogExtends w (cancelSlotW f n st w).2 := by
  rcases st with _ | s
  · rcases h1 : callRelH f n w with ⟨r1, w1⟩
    have b1 := benign_callRelH f n w
    rw [h1] at b1
    rcases r1 with _ | _
    · simp only [cancelSlotW, h1]
      exact b1
    · rcases h2 : callRelB f n w1 with ⟨r2, w2⟩
      have b2 := benign_callRelB f n w1
      rw [h2] at b2
      rcases r2 with _ | _
      · rcases h3 : callResH f n w2 with ⟨r3, w3⟩
        have b3 := benign_callResH f n w2
        rw [h3] at b3
        rcases r3 with _ | _
        · simp only [cancelSlotW, h1, h2, h3]
          exact logExtends_trans b1 (logExtends_trans b2
            (logExtends_trans b3 (benign_pushE _ _ rfl)))
        · simp only [cancelSlotW, h1, h2, h3]
          exact logExtends_trans b1 (logExtends_trans b2 b3)
      · simp only [cancelSlotW, h1, h2]
        exact logExtends_trans b1 b2
  · rcases s with _ | _
    · rcases h1 : callRelH f n w with ⟨r1, w1⟩
      have b1 := benign_callRelH f n w
      rw [h1] at b1
      simp only [cancelSlotW, h1]
      exact b1
    · rcases h1 : callRelB f n w with ⟨r1, w1⟩
      have b1 := benign_callRelB f n w
      rw [h1] at b1
      simp only [cancelSlotW, h1]
      exact b1

/-- Hotel release sweeps extend the log benignly. -/
theorem benign_releaseSweepH (f : Oracle) :
    ∀ (l : List ℕ) (w : World), LogExtends w (releaseSweepH f l w).2 := by
  intro l
  induction l with
  | nil => intro w; exact logExtends_rfl w
  | cons n t ih =>
    intro w
    rcases h1 : callRelH f n w with ⟨r1, w1⟩
    have b1 := benign_callRelH f n w
    rw [h1] at b1
    rcases r1 with _ | _
    · simp only [releaseSweepH, h1]
      exact b1
    · simp only [releaseSweepH, h1]
      exact logExtends_trans b1 (ih w1)

/-- Band release sweeps extend the log benignly. -/
theorem benign_releaseSweepB (f : Oracle) :
    ∀ (l : List ℕ) (w : World), LogExtends w (releaseSweepB f l w).2 := by
  intro l
  induction l with
  | nil => intro w; exact logExtends_rfl w
  | cons n t ih =>
    intro w
    rcases h1 : callRelB f n w with ⟨r1, w1⟩
    have b1 := benign_callRelB f n w
    rw [h1] at b1
    rcases r1 with _ | _
    · simp only [releaseSweepB, h1]
      exact b1
    · simp only [releaseSweepB, h1]
      exact logExtends_trans b1 (ih w1)

/-- The unmatched cleanup extends the log benignly. -/
theorem benign_cancelAllUnmatchedPyW (f : Oracle) (w : World) :
    LogExtends w (cancelAllUnmatchedPyW f w) := by
  rcases hs : viewCurrentSlotsW f w with ⟨⟨hh, hb⟩, w1⟩
  have b0 := benign_viewCurrentSlotsW f w
  rw [hs] at b0
  rcases h1 : releaseSweepH f (finSort (hh \ hb)) w1 with ⟨r1, w2⟩
  have b1 := benign_releaseSweepH f (finSort (hh \ hb)) w1
  rw [h1] at b1
  rcases r1 with _ | _
  · rcases h2 : releaseSweepB f (finSort (hb \ hh)) w2 with ⟨r2, w3⟩
    have b2 := benign_releaseSweepB f (finSort (hb \ hh)) w2
    rw [h2] at b2
    simp only [cancelAllUnmatchedPyW, hs, h1, h2]
    exact logExtends_trans b0 (logExtends_trans b1 b2)
  · simp only [cancelAllUnmatchedPyW, hs, h1]
    exact logExtends_trans b0 b1

/-- The attempt tail extends the log benignly. -/
theorem benign_finishPhase (f : Oracle) (e : ℕ) (hr br newH newB : Bool) (w : World) :
    LogExtends w (finishPhase f e hr br newH newB w).2 := by
  simp only [finishPhase]
  by_cases h1 : (hr && br) = true
  · rw [if_pos h1]
    exact benign_cancelAllUnmatchedPyW f w
  · rw [if_neg h1]
    by_cases h2 : (newH && !br) = true
    · rw [if_pos h2]
      rcases hc : callRelH f e w with ⟨r, w1⟩
      have b := benign_callRelH f e w
      rw [hc] at b
      rcases r with _ | _
      · exact b
      · exact b
    · rw [if_neg h2]
      by_cases h3 : (newB && !hr) = true
      · rw [if_pos h3]
        rcases hc : callRelB f e w with ⟨r, w1⟩
        have b := benign_callRelB f e w
        rw [hc] at b
        rcases r with _ | _
        · exact b
        · exact b
      · rw [if_neg h3]
        exact logExtends_rfl w

/-- The reservation step extends the log benignly. -/
theorem benign_reservePhase (f : Oracle) (hh hb : Finset ℕ) (e : ℕ) (w : World) :
    LogExtends w (reservePhase f hh hb e w).2 := by
  simp only [reservePhase]
  by_cases h1 : e ∉ hh
  · rw [if_pos h1]
    by_cases h2 : e ∉ hb
    · rw [if_pos h2]
      rcases hr : reserveSlotW f e none w with ⟨⟨a, b⟩, w1⟩
      have b1 := benign_reserveSlotW f e none w
      rw [hr] at b1
      exact logExtends_trans b1 (benign_finishPhase f e a b a b w1)
    · rw [if_neg h2]
      rcases hr : reserveSlotW f e (some Side.hotel) w with ⟨⟨a, b⟩, w1⟩
      have b1 := benign_reserveSlotW f e (some Side.hotel) w
      rw [hr] at b1
      exact logExtends_trans b1 (benign_finishPhase f e a true a false w1)
  · rw [if_neg h1]
    by_cases h2 : e ∉ hb
    · rw [if_pos h2]
      rcases hr : reserveSlotW f e (some Side.band) w with ⟨⟨a, b⟩, w1⟩
      have b1 := benign_reserveSlotW f e (some Side.band) w
      rw [hr] at b1
      exact logExtends_trans b1 (benign_finishPhase f e true b false b w1)
    · rw [if_neg h2]
      exact benign_finishPhase f e false false false false w

/-- The attempt middle phase extends the log benignly. -/
theorem benign_phaseMain (f : Oracle) (hh hb : Finset ℕ) (w : World) :
    LogExtends w (phaseMain f hh hb w).2 := by
  rcases hv : viewFirst5W f w with ⟨cand, w1⟩
  have bv := benign_viewFirst5W f w
  rw [hv] at bv
  rcases cand with _ | ⟨e, rest⟩
  · simp only [phaseMain, hv]
    exact bv
  · simp only [phaseMain, hv]
    by_cases hm : (hh ∩ hb).Nonempty
    · rw [dif_pos hm]
      by_cases hle : (hh ∩ hb).min' hm ≤ e
      · rw [if_pos hle]
        exact bv
      · rw [if_neg hle]
        rcases hc : cancelSlotW f ((hh ∩ hb).min' hm) none w1 with ⟨r, w2⟩
        have bc := benign_cancelSlotW f ((hh ∩ hb).min' hm) none w1
        rw [hc] at bc
        exact logExtends_trans bv (logExtends_trans bc (benign_reservePhase f hh hb e w2))
    · rw [dif_neg hm]
      exact logExtends_trans bv (benign_reservePhase f hh hb e w1)

/-- A whole attempt extends the log benignly: no retry sleep and no
exhaustion print is emitted inside an attempt. -/
theorem benign_attemptOnce (f : Oracle) (w : World) :
    LogExtends w (attemptOnce f w).2 := by
  rcases hs : viewCurrentSlotsW f w with ⟨⟨hh0, hb0⟩, w1⟩
  have b0 := benign_viewCurrentSlotsW f w
  rw [hs] at b0
  by_cases hcap : 2 ≤ hh0.card ∨ 2 ≤ hb0.card
  · rcases h1 : releaseSweepH f (finSort (hh0 \ hb0)) w1 with ⟨r1, w2⟩
    have b1 := benign_releaseSweepH f (finSort (hh0 \ hb0)) w1
    rw [h1] at b1
    rcases r1 with _ | _
    · rcases h2 : releaseSweepB f (finSort (hb0 \ hh0)) w2 with ⟨r2, w3⟩
      have b2 := benign_releaseSweepB f (finSort (hb0 \ hh0)) w2
      rw [h2] at b2
      rcases r2 with _ | _
      · rcases h3 : viewCurrentSlotsW f w3 with ⟨⟨hh, hb⟩, w4⟩
        have b3 := benign_viewCurrentSlotsW f w3
        rw [h3] at b3
        simp only [attemptOnce, hs, capacityPhase, if_pos hcap, h1, h2, h3]
        exact logExtends_trans b0 (logExtends_trans b1 (logExtends_trans b2
          (logExtends_trans b3 (benign_phaseMain f hh hb w4))))
      · simp only [attemptOnce, hs, capacityPhase, if_pos hcap, h1, h2]
        exact logExtends_trans b0 (logExtends_trans b1 b2)
    · simp only [attemptOnce, hs, capacityPhase, if_pos hcap, h1]
      exact logExtends_trans b0 b1
  · simp only [attemptOnce, hs, capacityPhase, if_neg hcap]
    exact logExtends_trans b0 (benign_phaseMain f hh0 hb0 w1)

/-- `countSleeps` is additive over appends. -/
theorem countSleeps_append (l t : List Event) :
    countSleeps (l ++ t) = countSleeps l + countSleeps t :=
  List.countP_append _ _ _

/-- The exhaustion print is not a sleep. -/
theorem countSleeps_exhausted : countSleeps [Event.exhausted] = 0 := rfl

/-- A retry sleep counts as one sleep. -/
theorem countSleeps_sleep (s : ℕ) : countSleeps [Event.sleepRetry s] = 1 := rfl

/-- The retry loop with budget `k` adds at most `k − 1` retry sleeps. -/
theorem loopAux_sleep_bound (f : Oracle) :
    ∀ (k : ℕ) (w : World),
      countSleeps ((loopAux f k w).2).log ≤ countSleeps w.log + (k - 1) := by
  intro k
  induction k with
  | zero =>
    intro w
    have h0 : ((loopAux f 0 w).2).log = w.log ++ [Event.exhausted] := rfl
    rw [h0, countSleeps_append, countSleeps_exhausted]
  | succ k ih =>
    intro w
    rcases hA : attemptOnce f w with ⟨r, w1⟩
    have hb : countSleeps w1.log = countSleeps w.log := by
      have hx := benign_attemptOnce f w
      rw [hA] at hx
      exact logExtends_countSleeps hx
    rcases r with _ | _ | s
    · have hstep : loopAux f (Nat.succ k) w = (true, w1) := by rw [loopAux, hA]
      rw [hstep]
      show countSleeps w1.log ≤ countSleeps w.log + (Nat.succ k - 1)
      omega
    · have hstep : loopAux f (Nat.succ k) w = (false, w1) := by rw [loopAux, hA]
      rw [hstep]
      show countSleeps w1.log ≤ countSleeps w.log + (Nat.succ k - 1)
      omega
    · rcases k with _ | k1
      · have hstep : loopAux f (Nat.succ 0) w = (false, pushE w1 Event.exhausted) := by
          rw [loopAux, hA]
        rw [hstep]
        have hpe : countSleeps (pushE w1 Event.exhausted).log = countSleeps w1.log := by
          rw [show (pushE w1 Event.exhausted).log = w1.log ++ [Event.exhausted] from rfl,
            countSleeps_append, countSleeps_exhausted]
          omega
        show countSleeps (pushE w1 Event.exhausted).log ≤ countSleeps w.log + (Nat.succ 0 - 1)
        omega
      · have hstep : loopAux f (Nat.succ (Nat.succ k1)) w =
            loopAux f (Nat.succ k1) (pushE w1 (Event.sleepRetry s)) := by
          rw [loopAux, hA]
        rw [hstep]
        have hpush : countSleeps (pushE w1 (Event.sleepRetry s)).log
            = countSleeps w1.log + 1 := by
          rw [show (pushE w1 (Event.sleepRetry s)).log = w1.log ++ [Event.sleepRetry s] from rfl,
            countSleeps_append, countSleeps_sleep]
        have hih := ih (pushE w1 (Event.sleepRetry s))
        simp only [Nat.succ_eq_add_one] at hih ⊢
        omega

/-- If the loop's final log records the exhaustion print, the loop
returned False. -/
theorem loopAux_exhausted (f : Oracle) :
    ∀ (k : ℕ) (w : World), Event.exhausted ∉ w.log →
      Event.exhausted ∈ ((loopAux f k w).2).log → (loopAux f k w).1 = false := by
  intro k
  induction k with
  | zero => intro w _ _; rfl
  | succ k ih =>
    intro w hnot hmem
    rcases hA : attemptOnce f w with ⟨r, w1⟩
    have hbequiv : Event.exhausted ∈ w1.log ↔ Event.exhausted ∈ w.log := by
      have hx := benign_attemptOnce f w
      rw [hA] at hx
      exact logExtends_exhausted hx
    rcases r with _ | _ | s
    · have hstep : loopAux f (Nat.succ k) w = (true, w1) := by rw [loopAux, hA]
      rw [hstep] at hmem ⊢
      exact absurd (hbequiv.mp hmem) hnot
    · have hstep : loopAux f (Nat.succ k) w = (false, w1) := by rw [loopAux, hA]
      rw [hstep]
    · rcases k with _ | k1
      · have hstep : loopAux f (Nat.succ 0) w = (false, pushE w1 Event.exhausted) := by
          rw [loopAux, hA]
        rw [hstep]
      · have hstep : loopAux f (Nat.succ (Nat.succ k1)) w =
            loopAux f (Nat.succ k1) (pushE w1 (Event.sleepRetry s)) := by
          rw [loopAux, hA]
        rw [hstep] at hmem ⊢
        refine ih (pushE w1 (Event.sleepRetry s)) ?_ hmem
        intro hc
        rcases List.mem_append.mp hc with h | h
        · exact hnot (hbequiv.mp h)
        · simp at h

/-- C7: `reserveEarliestSlot` performs at most 3 attempts (it records at
most 2 retry sleeps); a retry with budget left sleeps and retries while
the last retry exits the loop printing the exhaustion message and
returning False; whenever the exhaustion print appears, the result is
False; and the failure branch of an attempt first issues the rollback
release for a side newly acquired in that attempt (hotel, or band when
no hotel rollback is due) before signalling the retry. -/
theorem c7_bounded_retry :
    (∀ (f : Oracle) (w : World),
      countSleeps ((reserveEarliestSlot f w).2).log ≤ countSleeps w.log + 2) ∧
    (∀ (f : Oracle) (w : World), Event.exhausted ∉ w.log →
      Event.exhausted ∈ ((reserveEarliestSlot f w).2).log →
      (reserveEarliestSlot f w).1 = false) ∧
    (∀ (f : Oracle) (w w1 : World) (s : ℕ), attemptOnce f w = (ARes.retry s, w1) →
      loopAux f 1 w = (false, pushE w1 Event.exhausted)) ∧
    (∀ (f : Oracle) (w w1 : World) (s k : ℕ), attemptOnce f w = (ARes.retry s, w1) →
      loopAux f (k + 2) w = loopAux f (k + 1) (pushE w1 (Event.sleepRetry s))) ∧
    (∀ (f : Oracle) (e : ℕ) (hr br newH newB : Bool) (w : World),
      (newH && !br) = true →
      (∃ b, Event.relH e b ∈ ((finishPhase f e hr br newH newB w).2).log) ∧
      ∃ s, (finishPhase f e hr br newH newB w).1 = ARes.retry s) ∧
    (∀ (f : Oracle) (e : ℕ) (hr br newH newB : Bool) (w : World),
      (newB && !hr) = true → (newH && !br) = false →
      (∃ b, Event.relB e b ∈ ((finishPhase f e hr br newH newB w).2).log) ∧
      ∃ s, (finishPhase f e hr br newH newB w).1 = ARes.retry s) := by
  refine ⟨?_, ?_, ?_, ?_, ?_, ?_⟩
  · intro f w
    have h := loopAux_sleep_bound f 3 w
    exact le_trans h (by omega)
  · intro f w hnot hmem
    exact loopAux_exhausted f 3 w hnot hmem
  · intro f w w1 s h
    rw [loopAux, h]
  · intro f w w1 s k h
    rw [loopAux, h]
  · intro f e hr br newH newB w h2
    have hbr : br = false := by
      rcases br with _ | _
      · rfl
      · simp at h2
    subst hbr
    have hnewH : newH = true := by simpa using h2
    subst hnewH
    have hne : (hr && false) ≠ true := by simp
    rcases hfw : f w.idx with _ | _
    · constructor
      · exact ⟨true, by simp [finishPhase, hne, callRelH, hfw]⟩
      · exact ⟨1, by simp [finishPhase, hne, callRelH, hfw]⟩
    · constructor
      · exact ⟨false, by simp [finishPhase, hne, callRelH, hfw]⟩
      · exact ⟨2, by simp [finishPhase, hne, callRelH, hfw]⟩
  · intro f e hr br newH newB w h3 h2
    have hhr : hr = false := by
      rcases hr with _ | _
      · rfl
      · simp at h3
    subst hhr
    have hnewB : newB = true := by simpa using h3
    subst hnewB
    have hne : (false && br) ≠ true := by simp
    rcases hfw : f w.idx with _ | _
    · constructor
      · exact ⟨true, by simp [finishPhase, hne, h2, callRelB, hfw]⟩
      · exact ⟨1, by simp [finishPhase, hne, h2, callRelB, hfw]⟩
    · constructor
      · exact ⟨false, by simp [finishPhase, hne, h2, callRelB, hfw]⟩
      · exact ⟨2, by simp [finishPhase, hne, h2, callRelB, hfw]⟩

/-- Concrete state for the C1 witness: slot 5 available on both sides. -/
def w1wit : World := ⟨⟨{5}, ∅⟩, ⟨{5}, ∅⟩, 0, []⟩

/-- Oracle for the C1 witness: only the second call (the band reserve)
raises. -/
def f1wit : Oracle := fun i => i == 1

/-- Witness for C1 at a concrete input: hotel reserve succeeds, band
reserve raises, the rollback succeeds, so the dual reserve reports
failure and the caller newly holds 0 slots for 5. -/
theorem c1_witness :
    (reserveSlotW f1wit 5 none w1wit).1 = (true, false) ∧
    newlyHeld w1wit (reserveSlotW f1wit 5 none w1wit).2 5 = 0 :=
  ⟨((c1_dual_reserve_rollback f1wit w1wit 5).2.2.1 rfl rfl).2.1,
   ((c1_dual_reserve_rollback f1wit w1wit 5).2.2.1 rfl rfl).2.2.1 rfl⟩

/-- Concrete state for the C2 witness: pair 3 held, slot 5 available. -/
def w2wit : World := ⟨⟨{5}, {3}⟩, ⟨{5}, {3}⟩, 0, []⟩

/-- Witness for the amended C2 at a concrete input. -/
theorem c2_witness :
    3 ∈ (reserveEarliestSlot allOk w2wit).2.hotel.held ∩
        (reserveEarliestSlot allOk w2wit).2.band.held ∧ (3 : ℕ) ≤ 3 :=
  ⟨by decide, c2_amended_monotone w2wit 3 (by decide) (by decide) 3 (by decide)⟩

/-- Witness for C3 at concrete inputs: 1 is among the first five
candidates and every candidate left out (such as 6) is larger. -/
theorem c3_witness :
    1 ∈ viewFirst5Core {1, 2, 3, 4, 5, 6} {1, 2, 3, 4, 5, 6} ∅ ∅ ∧ (1 : ℕ) < 6 :=
  ⟨by decide,
   (c3_candidate_set.1 {1, 2, 3, 4, 5, 6} {1, 2, 3, 4, 5, 6} ∅ ∅).2.2.2.2.1
     1 (by decide) 6 (by decide) (by decide)⟩

/-- The snapshot world reached inside the C4 counterexample run. -/
def w4snap : World := ⟨⟨∅, {1, 2}⟩, ⟨∅, ∅⟩, 2, [Event.getHeldH true, Event.getHeldB true]⟩

/-- Witness for the amended C4 at a concrete input: the first failing
release aborts the sweep, the function returning the partially swept
state. -/
theorem c4_witness :
    cancelAllUnmatchedPyW f4cex w4cex =
      (releaseSweepH f4cex (finSort (({1, 2} : Finset ℕ) \ ∅)) w4snap).2 :=
  (c4_amended_sweep.2.2 f4cex w4cex {1, 2} ∅ w4snap (by decide) (by decide)).1

/-- Witness for the amended C5 at a concrete input: the service-variant
cleanup keeps exactly the earliest pair 1. -/
theorem c5_witness :
    (cancelAllUnmatchedSvcW allOk w5cex).hotel.held ∩
      (cancelAllUnmatchedSvcW allOk w5cex).band.held = {1} :=
  (c5_amended_prune w5cex 1 (by decide) (by decide) (by decide)).1

/-- Concrete state for the C6 witness: slot 7 held on both sides. -/
def w6wit : World := ⟨⟨∅, {7}⟩, ⟨∅, {7}⟩, 0, []⟩

/-- Oracle for the C6 witness: only the second call (the band release)
raises. -/
def f6wit : Oracle := fun i => i == 1

/-- Witness for C6 at a concrete input: after the band release raises,
the compensating hotel re-reserve is attempted (and succeeds). -/
theorem c6_witness :
    Event.resH 7 true ∈ ((cancelSlotW f6wit 7 none w6wit).2).log :=
  ((c6_dual_cancel_compensation f6wit w6wit 7).2.2 rfl rfl).1

/-- Concrete state for the C7 witness: slot 4 available on both sides. -/
def w7wit : World := ⟨⟨{4}, ∅⟩, ⟨{4}, ∅⟩, 0, []⟩

/-- Oracle for the C7 witness: only call 6 (the hotel reserve inside the
attempt) raises, so the attempt ends in an ordinary retry. -/
def f7wit : Oracle := fun i => i == 6

/-- Witness for C7 at a concrete input: a retrying attempt with no
budget left exits the loop via the exhaustion print, returning False. -/
theorem c7_witness :
    loopAux f7wit 1 w7wit = (false, pushE (attemptOnce f7wit w7wit).2 Event.exhausted) :=
  c7_bounded_retry.2.2.1 f7wit w7wit (attemptOnce f7wit w7wit).2 1 (by decide)

/-- Concrete state for the C8 witness: pair 2 held, slot 5 available. -/
def w8wit : World := ⟨⟨{5}, {2}⟩, ⟨{5}, {2}⟩, 0, []⟩

/-- The world right after the candidate fetch in the C8 witness run. -/
def w8snap : World := ⟨⟨{5}, {2}⟩, ⟨{5}, {2}⟩, 4, [Event.getAvailH true, Event.getAvailB true, Event.getHeldH true, Event.getHeldB true]⟩

/-- Witness for C8 at a concrete input: holding pair 2 with earliest
candidate 5, the attempt returns success with no further calls. -/
theorem c8_witness :
    phaseMain allOk {2} {2} w8wit = (ARes.success, w8snap) :=
  c8_already_optimal.1 allOk {2} {2} w8wit w8snap 5 [] (by decide) 2 (by decide) (by decide)

/-- Witness for C9 at a concrete input: after a first call at time 0,
two more rate-limited calls take at least 2 seconds. -/
theorem c9_witness :
    (⟨0, 0⟩ : RL).now + (([2, 0] : List ℚ).length : ℚ) ≤ (rlRun ⟨0, 0⟩ [2, 0]).now :=
  c9_rate_limiter.2.2 ⟨0, 0⟩ [2, 0] rfl (by decide)

/-- The mock with every slot initially available. -/
def mock0 : MockApi := mockInit fun _ => true

/-- Witness for C10 at a concrete input: the invariant holds after a
(no-op) release on the freshly constructed mock. -/
theorem c10_witness : MockInv mock0 :=
  c10_mock_invariant.2.2.1 mock0 5 mock0
    (by
      show ∀ i ∈ mockRange,
        ¬((mock0.slots i).available = true ∧ (mock0.slots i).held_by_us = true)
      decide)
    rfl
